import Mathlib

/-!
# Verification of the papirs whiteboard core

Shallow embedding of the spatial/state engine of the papirs browser whiteboard
(`src/client/src`): the rectangle-difference algorithm (`utils.rs`), the tile
index (`model/tiling.rs`), the undo/redo history (`model/history.rs`) and the
document orchestration layer (`model.rs`), together with proofs of the
specified properties.

Machine integers (`i32`) are modelled as `Int`; the claims under study are not
about overflow behaviour.  Hash maps (`FxHashMap`) are modelled extensionally,
as lookup functions or association lists; Rust's `==` on hash maps is
key/value-set equality, which corresponds to pointwise equality of lookups.
-/

namespace Papirs

/-! ## Basic geometry (geo crate types over `i32`) -/

/-- `geo::Coordinate<i32>`. -/
structure Coord where
  x : Int
  y : Int
deriving DecidableEq, Repr

/-- `geo::Rect<i32>`: an axis-aligned rectangle, kept with `rmin ≤ rmax`
componentwise (`rmin`/`rmax` model `Rect::min()`/`Rect::max()`). -/
structure Rect where
  rmin : Coord
  rmax : Coord
deriving DecidableEq, Repr

/-- `geo::Rect::new`: builds a rectangle from two corners, normalizing them
into the min and the max corner per axis. -/
def mkRect (c1 c2 : Coord) : Rect :=
  ⟨⟨min c1.x c2.x, min c1.y c2.y⟩, ⟨max c1.x c2.x, max c1.y c2.y⟩⟩

/-- `geo::Line<i32>`: the closed segment from `start` to `endp`. -/
structure Line where
  start : Coord
  endp : Coord
deriving DecidableEq, Repr

/-- The planar region covered by a rectangle, read as the half-open integer box
`[rmin.x, rmax.x) × [rmin.y, rmax.y)`.  This is the exact-region reading of the
rectangle-difference contract: adjacent output rectangles of `rect_diff` share
edges, and the half-open convention (uniform over all rectangles) makes
"minus" and "intersect" exact there. -/
def Rect.memH (r : Rect) (p : Int × Int) : Prop :=
  r.rmin.x ≤ p.1 ∧ p.1 < r.rmax.x ∧ r.rmin.y ≤ p.2 ∧ p.2 < r.rmax.y

instance (r : Rect) (p : Int × Int) : Decidable (r.memH p) := by
  unfold Rect.memH; infer_instance

/-- A point lies in the union of the regions of a list of rectangles. -/
def memUnion : List Rect → Int × Int → Prop
  | [], _ => False
  | r :: rs, p => r.memH p ∨ memUnion rs p

theorem memUnion_iff (rs : List Rect) (p : Int × Int) :
    memUnion rs p ↔ ∃ r ∈ rs, r.memH p := by
  induction rs with
  | nil => simp [memUnion]
  | cons r rs ih => simp [memUnion, ih]

instance (rs : List Rect) (p : Int × Int) : Decidable (memUnion rs p) :=
  decidable_of_iff (∃ r ∈ rs, r.memH p) (memUnion_iff rs p).symm

/-- Min/max-free characterization of membership in a two-corner rectangle;
linear-arithmetic friendly. -/
theorem memH_mkRect (c1 c2 : Coord) (p : Int × Int) :
    (mkRect c1 c2).memH p ↔
      (c1.x ≤ p.1 ∨ c2.x ≤ p.1) ∧ (p.1 < c1.x ∨ p.1 < c2.x) ∧
      (c1.y ≤ p.2 ∨ c2.y ≤ p.2) ∧ (p.2 < c1.y ∨ p.2 < c2.y) := by
  simp [mkRect, Rect.memH, min_le_iff, lt_max_iff]

theorem Coord_mk_x (a b : Int) : (Coord.mk a b).x = a := rfl

theorem Coord_mk_y (a b : Int) : (Coord.mk a b).y = b := rfl

theorem mkRect_rmin_x (c1 c2 : Coord) : (mkRect c1 c2).rmin.x = min c1.x c2.x := rfl

theorem mkRect_rmin_y (c1 c2 : Coord) : (mkRect c1 c2).rmin.y = min c1.y c2.y := rfl

theorem mkRect_rmax_x (c1 c2 : Coord) : (mkRect c1 c2).rmax.x = max c1.x c2.x := rfl

theorem mkRect_rmax_y (c1 c2 : Coord) : (mkRect c1 c2).rmax.y = max c1.y c2.y := rfl

/-! ## The rectangle-difference algorithm (`utils::rect_diff`) -/

/-- Return type of `rect_diff` (`utils::RectDiff`); the `ArrayVec<Rect, 2>`
fields are modelled as lists (which the function fills with at most two
elements). -/
structure RectDiff where
  removed : List Rect
  added : List Rect
deriving DecidableEq, Repr

/-- `utils::rect_diff` (src/client/src/utils.rs, lines 52–130).

The source first flips each axis so that `origin ≤ old_diag` holds on it
(negating the three x or y coordinates), then either handles the degenerate
branch (`new_diag` not strictly beyond `origin` on some axis: whole old
rectangle removed, whole new rectangle added) or emits one slab per axis whose
extent changed, and finally un-flips every output rectangle
(`map_coords_inplace`, which rebuilds the rectangle through the normalizing
`Rect::new`). -/
def rect_diff (origin old_diag new_diag : Coord) : RectDiff :=
  let flip_x := old_diag.x < origin.x
  let origin1 : Coord := if flip_x then ⟨-origin.x, origin.y⟩ else origin
  let old1 : Coord := if flip_x then ⟨-old_diag.x, old_diag.y⟩ else old_diag
  let new1 : Coord := if flip_x then ⟨-new_diag.x, new_diag.y⟩ else new_diag
  let flip_y := old1.y < origin1.y
  let origin2 : Coord := if flip_y then ⟨origin1.x, -origin1.y⟩ else origin1
  let old2 : Coord := if flip_y then ⟨old1.x, -old1.y⟩ else old1
  let new2 : Coord := if flip_y then ⟨new1.x, -new1.y⟩ else new1
  let lists : List Rect × List Rect :=
    if new2.x ≤ origin2.x ∨ new2.y ≤ origin2.y then
      ([mkRect origin2 old2], [mkRect origin2 new2])
    else
      let xLists : List Rect × List Rect :=
        if old2.x < new2.x then ([], [mkRect ⟨old2.x, origin2.y⟩ new2])
        else if old2.x = new2.x then ([], [])
        else ([mkRect ⟨new2.x, origin2.y⟩ old2], [])
      let yLists : List Rect × List Rect :=
        if old2.y < new2.y then ([], [mkRect ⟨origin2.x, old2.y⟩ new2])
        else if old2.y = new2.y then ([], [])
        else ([mkRect ⟨origin2.x, new2.y⟩ old2], [])
      (xLists.1 ++ yLists.1, xLists.2 ++ yLists.2)
  let unflip : Coord → Coord := fun c =>
    ⟨if flip_x then -c.x else c.x, if flip_y then -c.y else c.y⟩
  let unflipRect : Rect → Rect := fun r => mkRect (unflip r.rmin) (unflip r.rmax)
  ⟨lists.1.map unflipRect, lists.2.map unflipRect⟩

example :
    rect_diff ⟨0, 0⟩ ⟨100, 100⟩ ⟨50, 100⟩ =
      ⟨[⟨⟨50, 0⟩, ⟨100, 100⟩⟩], []⟩ := by decide
set_option maxHeartbeats 1600000 in
/-- C4 — RectDiff reconstruction law: for all coordinates `origin`, `old_diag`,
`new_diag`, with `old_rect = Rect::new(origin, old_diag)` and
`new_rect = Rect::new(origin, new_diag)`, and for every point `p`:
`p ∈ old_rect \ ⋃ removed ↔ p ∈ old_rect ∩ new_rect`, and
`p ∈ new_rect \ ⋃ added ↔ p ∈ old_rect ∩ new_rect`
(regions read with the uniform half-open convention). -/
theorem rect_diff_reconstruction (origin old_diag new_diag : Coord) (p : Int × Int) :
    (((mkRect origin old_diag).memH p ∧
        ¬ memUnion (rect_diff origin old_diag new_diag).removed p) ↔
      ((mkRect origin old_diag).memH p ∧ (mkRect origin new_diag).memH p)) ∧
    (((mkRect origin new_diag).memH p ∧
        ¬ memUnion (rect_diff origin old_diag new_diag).added p) ↔
      ((mkRect origin old_diag).memH p ∧ (mkRect origin new_diag).memH p)) := by
  obtain ⟨ox, oy⟩ := origin
  obtain ⟨ax, ay⟩ := old_diag
  obtain ⟨bx, cy⟩ := new_diag
  obtain ⟨px, py⟩ := p
  simp only [rect_diff]
  split_ifs <;>
    simp only [List.map_cons, List.map_nil, List.map_append, List.append_nil,
      List.nil_append, memUnion, Rect.memH, mkRect_rmin_x, mkRect_rmin_y, mkRect_rmax_x,
      mkRect_rmax_y, or_false, false_or, false_and, and_false, not_false_eq_true, and_true,
      true_and, not_true, imp_false] at * <;>
    omega

/-- Two rectangles are region-disjoint (no common point, half-open reading). -/
def disjointH (r1 r2 : Rect) : Prop := ∀ p : Int × Int, ¬(r1.memH p ∧ r2.memH p)

/-- C5 counterexample — the claim "the rectangles in the removed list are
pairwise disjoint, and the rectangles in the added list are pairwise disjoint"
fails at `origin = (0,0)`, `old_diag = (10,10)`, `new_diag = (20,20)`: the two
added slabs are `[10,20]×[0,20]` and `[0,20]×[10,20]` (both reach `new_diag`),
overlapping on `[10,20]×[10,20]`, e.g. at the point `(10,10)`. -/
theorem rect_diff_disjoint_counterexample :
    ¬ ((rect_diff ⟨0, 0⟩ ⟨10, 10⟩ ⟨20, 20⟩).removed.Pairwise disjointH ∧
       (rect_diff ⟨0, 0⟩ ⟨10, 10⟩ ⟨20, 20⟩).added.Pairwise disjointH) := by
  intro h
  have hlist : (rect_diff ⟨0, 0⟩ ⟨10, 10⟩ ⟨20, 20⟩).added =
      [⟨⟨10, 0⟩, ⟨20, 20⟩⟩, ⟨⟨0, 10⟩, ⟨20, 20⟩⟩] := by decide
  have h2 := h.2
  rw [hlist] at h2
  exact (List.pairwise_cons.mp h2).1 _ (List.mem_singleton.mpr rfl) (10, 10) (by decide)

set_option maxHeartbeats 1600000 in
/-- C5 amended — within one list the two slabs may overlap (see the
counterexample), but the removed region and the added region are mutually
disjoint: no point lies both in the union of the removed rectangles and in the
union of the added rectangles. -/
theorem rect_diff_removed_added_disjoint (origin old_diag new_diag : Coord) (p : Int × Int) :
    ¬ (memUnion (rect_diff origin old_diag new_diag).removed p ∧
       memUnion (rect_diff origin old_diag new_diag).added p) := by
  obtain ⟨ox, oy⟩ := origin
  obtain ⟨ax, ay⟩ := old_diag
  obtain ⟨bx, cy⟩ := new_diag
  obtain ⟨px, py⟩ := p
  simp only [rect_diff]
  split_ifs <;>
    simp only [List.map_cons, List.map_nil, List.map_append, List.append_nil,
      List.nil_append, memUnion, Rect.memH, mkRect_rmin_x, mkRect_rmin_y, mkRect_rmax_x,
      mkRect_rmax_y, or_false, false_or, false_and, and_false, not_false_eq_true, and_true,
      true_and, not_true, imp_false] at * <;>
    omega

/-- C6 counterexample — at `origin = (0,0)`, `old_diag = (10,10)`,
`new_diag = (20,20)` (normalized, non-degenerate, `new_diag.x > old_diag.x`),
the claim says the added list contains the X slab `x ∈ [10,20]` across the old
rectangle's Y extent `y ∈ [0,10]`; the code instead emits the slab with the
new rectangle's Y extent (`Rect::new((old.x, origin.y), new_diag)`), so the
rectangle `[10,20]×[0,10]` is not in the list. -/
theorem rect_diff_slab_counterexample :
    (rect_diff ⟨0, 0⟩ ⟨10, 10⟩ ⟨20, 20⟩).added =
        [⟨⟨10, 0⟩, ⟨20, 20⟩⟩, ⟨⟨0, 10⟩, ⟨20, 20⟩⟩] ∧
      (⟨⟨10, 0⟩, ⟨20, 10⟩⟩ : Rect) ∉ (rect_diff ⟨0, 0⟩ ⟨10, 10⟩ ⟨20, 20⟩).added := by
  decide

set_option maxHeartbeats 1600000 in
/-- C6 amended — slab shape for normalized (`origin ≤ old_diag` componentwise),
non-degenerate (`new_diag` strictly beyond `origin` on both axes) inputs: per
axis, a grown extent emits an added slab and a shrunk extent emits a removed
slab, and an unchanged extent emits nothing; the X slabs span
`x ∈ [old_diag.x, new_diag.x]` (added) resp. `x ∈ [new_diag.x, old_diag.x]`
(removed); the removed slabs span the full extent of the old rectangle on the
other axis, while the added slabs span the full extent of the **new**
rectangle on the other axis (`y ∈ [origin.y, new_diag.y]` for the X slab), not
the old one's. -/
theorem rect_diff_slabs (origin old_diag new_diag : Coord)
    (hx : origin.x ≤ old_diag.x) (hy : origin.y ≤ old_diag.y)
    (hnx : origin.x < new_diag.x) (hny : origin.y < new_diag.y) :
    (rect_diff origin old_diag new_diag).added =
        (if old_diag.x < new_diag.x then
          [⟨⟨old_diag.x, origin.y⟩, ⟨new_diag.x, new_diag.y⟩⟩] else []) ++
        (if old_diag.y < new_diag.y then
          [⟨⟨origin.x, old_diag.y⟩, ⟨new_diag.x, new_diag.y⟩⟩] else []) ∧
    (rect_diff origin old_diag new_diag).removed =
        (if new_diag.x < old_diag.x then
          [⟨⟨new_diag.x, origin.y⟩, ⟨old_diag.x, old_diag.y⟩⟩] else []) ++
        (if new_diag.y < old_diag.y then
          [⟨⟨origin.x, new_diag.y⟩, ⟨old_diag.x, old_diag.y⟩⟩] else []) := by
  obtain ⟨ox, oy⟩ := origin
  obtain ⟨ax, ay⟩ := old_diag
  obtain ⟨bx, cy⟩ := new_diag
  simp only at hx hy hnx hny
  simp only [rect_diff]
  split_ifs <;> simp only [Coord_mk_x, Coord_mk_y] at * <;>
    first
      | (exfalso; omega)
      | (simp (disch := omega) only [mkRect, min_eq_left, min_eq_right, max_eq_left,
          max_eq_right, Coord_mk_x, Coord_mk_y, List.map_cons, List.map_nil, List.map_append,
          List.append_nil, List.nil_append, List.cons.injEq, List.nil_eq, and_true, true_and,
          Rect.mk.injEq, Coord.mk.injEq])

/-- C6 witness. -/
theorem rect_diff_slabs_witness :
    (rect_diff ⟨0, 0⟩ ⟨10, 10⟩ ⟨20, 20⟩).added =
        (if (10 : Int) < 20 then [(⟨⟨10, 0⟩, ⟨20, 20⟩⟩ : Rect)] else []) ++
        (if (10 : Int) < 20 then [(⟨⟨0, 10⟩, ⟨20, 20⟩⟩ : Rect)] else []) ∧
    (rect_diff ⟨0, 0⟩ ⟨10, 10⟩ ⟨20, 20⟩).removed =
        (if (20 : Int) < 10 then [(⟨⟨20, 0⟩, ⟨10, 10⟩⟩ : Rect)] else []) ++
        (if (20 : Int) < 10 then [(⟨⟨0, 20⟩, ⟨10, 10⟩⟩ : Rect)] else []) :=
  rect_diff_slabs ⟨0, 0⟩ ⟨10, 10⟩ ⟨20, 20⟩ (by decide) (by decide) (by decide) (by decide)

/-! ## Edit history (`model/history.rs`) -/

/-- `history::State`: which rollback is in flight. -/
inductive HState
  | undoing
  | redoing
deriving DecidableEq, Repr

/-- `history::History<C>`.  The `state` field is the source's `Option<State>`
(`none` = idle).  The stacks are `Vec<C>` used only through `push`/`pop` at the
top; they are modelled as lists with the top at the head. -/
structure History (C : Type) where
  undo_stack : List C
  redo_stack : List C
  state : Option HState
deriving DecidableEq, Repr

/-- `History::default`. -/
def History.default (C : Type) : History C := ⟨[], [], none⟩

/-- `History::push` (src/client/src/model/history.rs, lines 25–40). -/
def History.push {C} (h : History C) (com : C) : History C :=
  match h.state with
  | none => { h with undo_stack := com :: h.undo_stack, redo_stack := [] }
  | some .undoing => { h with redo_stack := com :: h.redo_stack, state := none }
  | some .redoing => { h with undo_stack := com :: h.undo_stack, state := none }

/-- `History::start_undo` (lines 42–49).  The source asserts
`state.is_none()` before popping (a violated assertion aborts the program, so
theorems carry `state = none` as a precondition); it pops the undo stack and
moves to the `Undoing` state only when a command was popped.  Modelled as
returning the popped command together with the updated history. -/
def History.start_undo {C} (h : History C) : Option C × History C :=
  match h.undo_stack with
  | [] => (none, h)
  | com :: rest => (some com, { h with undo_stack := rest, state := some .undoing })

/-- `History::start_redo` (lines 51–58), symmetric to `start_undo`. -/
def History.start_redo {C} (h : History C) : Option C × History C :=
  match h.redo_stack with
  | [] => (none, h)
  | com :: rest => (some com, { h with redo_stack := rest, state := some .redoing })

/-- C2 — History push discipline: in the `Idle` state, `push c` puts `c` on
top of the undo stack and leaves the redo stack empty; in the `Undoing` state
it puts `c` on top of the redo stack, leaves the undo stack unchanged, and
returns to `Idle`; in the `Redoing` state it puts `c` on top of the undo
stack, leaves the redo stack unchanged, and returns to `Idle`; and after a
`start_undo` that returns a command, one subsequent `push c'` leaves the state
`Idle` with `c'` on top of the redo stack. -/
theorem history_push_discipline {C : Type} (h : History C) (c : C) :
    (h.state = none →
      (h.push c).undo_stack = c :: h.undo_stack ∧ (h.push c).redo_stack = [] ∧
        (h.push c).state = none) ∧
    (h.state = some .undoing →
      (h.push c).redo_stack = c :: h.redo_stack ∧
        (h.push c).undo_stack = h.undo_stack ∧ (h.push c).state = none) ∧
    (h.state = some .redoing →
      (h.push c).undo_stack = c :: h.undo_stack ∧
        (h.push c).redo_stack = h.redo_stack ∧ (h.push c).state = none) ∧
    (h.state = none → ∀ com h', h.start_undo = (some com, h') →
      ∀ c' : C, (h'.push c').state = none ∧ (h'.push c').redo_stack.head? = some c') := by
  obtain ⟨us, rs, st⟩ := h
  refine ⟨?_, ?_, ?_, ?_⟩ <;> intro hst
  · simp only at hst
    subst hst
    simp [History.push]
  · simp only at hst
    subst hst
    simp [History.push]
  · simp only at hst
    subst hst
    simp [History.push]
  · intro com h' heq c'
    cases us with
    | nil => simp [History.start_undo] at heq
    | cons a rest =>
        simp only [History.start_undo, Prod.mk.injEq, Option.some.injEq] at heq
        obtain ⟨rfl, rfl⟩ := heq
        simp [History.push]

/-- C2 witness: a concrete run of the four clauses. -/
theorem history_push_discipline_witness :
    ((⟨[5], [7], none⟩ : History Nat).push 3).undo_stack = [3, 5] ∧
    ((⟨[5], [7], none⟩ : History Nat).push 3).redo_stack = [] ∧
    (((⟨[5], [7], none⟩ : History Nat).start_undo.2).push 9).state = none ∧
    (((⟨[5], [7], none⟩ : History Nat).start_undo.2).push 9).redo_stack.head? = some 9 := by
  have h1 := (history_push_discipline (⟨[5], [7], none⟩ : History Nat) 3).1 rfl
  have h4 := (history_push_discipline (⟨[5], [7], none⟩ : History Nat) 3).2.2.2 rfl 5
    ⟨[], [7], some .undoing⟩ rfl 9
  exact ⟨h1.1, h1.2.1, h4.1, h4.2⟩

/-! ## Exact intersection tests and their pointwise semantics

The tile index calls the geometry library's `Intersects` implementations
(`geo` crate), whose sources are not part of this repository.  The spec
describes them as exact geometric tests ("filtered by an exact
segment–rectangle intersection test to exclude false positives from the
bounding-box enumeration"); they are modelled here as exact decision
procedures for "the two closed shapes share a point", with the sharing of a
point expressed over rational coordinates and proved equivalent to the
executable tests below. -/

/-- Membership of a rational point in the closed box of a rectangle. -/
def Rect.memQ (r : Rect) (p : ℚ × ℚ) : Prop :=
  (r.rmin.x : ℚ) ≤ p.1 ∧ p.1 ≤ (r.rmax.x : ℚ) ∧
  (r.rmin.y : ℚ) ≤ p.2 ∧ p.2 ≤ (r.rmax.y : ℚ)

/-- The point of a segment at parameter `t ∈ [0,1]`. -/
def Line.point (l : Line) (t : ℚ) : ℚ × ℚ :=
  ((l.start.x : ℚ) + t * ((l.endp.x : ℚ) - (l.start.x : ℚ)),
   (l.start.y : ℚ) + t * ((l.endp.y : ℚ) - (l.start.y : ℚ)))

/-- Membership of a rational point in a closed segment. -/
def SegMem (l : Line) (p : ℚ × ℚ) : Prop :=
  ∃ t : ℚ, 0 ≤ t ∧ t ≤ 1 ∧ p = l.point t

/-- Modelled from the spec: `Rect::intersects(&Rect<i32>)` of the geometry
library (absent from src/), the inclusive interval-overlap test between two
closed rectangles. -/
def rectIntersectsRect (r1 r2 : Rect) : Bool :=
  decide (r2.rmin.x ≤ r1.rmax.x) && decide (r1.rmin.x ≤ r2.rmax.x) &&
  decide (r2.rmin.y ≤ r1.rmax.y) && decide (r1.rmin.y ≤ r2.rmax.y)

/-- The parameter interval `{t | lo ≤ s + t·d ≤ hi}` of one axis of a segment,
clipped conventionally to `(0,1)` when the axis is constant and inside
(`none` = empty). -/
def axisParam (s d lo hi : Int) : Option (ℚ × ℚ) :=
  if d = 0 then
    if lo ≤ s ∧ s ≤ hi then some (0, 1) else none
  else
    let t1 : ℚ := ((lo - s : Int) : ℚ) / ((d : Int) : ℚ)
    let t2 : ℚ := ((hi - s : Int) : ℚ) / ((d : Int) : ℚ)
    if 0 < d then some (t1, t2) else some (t2, t1)

/-- Modelled from the spec: `Line::intersects(&Rect<i32>)` of the geometry
library (absent from src/), the exact segment–rectangle intersection test.
Decided by parametric clipping of the segment against the box; proved below
(`lineIntersectsRect_iff`) to hold exactly when the closed segment and the
closed box share a rational point. -/
def lineIntersectsRect (l : Line) (r : Rect) : Bool :=
  match axisParam l.start.x (l.endp.x - l.start.x) r.rmin.x r.rmax.x,
        axisParam l.start.y (l.endp.y - l.start.y) r.rmin.y r.rmax.y with
  | some xi, some yi => decide (max 0 (max xi.1 yi.1) ≤ min 1 (min xi.2 yi.2))
  | _, _ => false

theorem axisParam_none_spec {s d lo hi : Int} (hnone : axisParam s d lo hi = none)
    (t : ℚ) : ¬((lo : ℚ) ≤ s + t * d ∧ (s : ℚ) + t * d ≤ hi) := by
  unfold axisParam at hnone
  split_ifs at hnone with h1 h2
  · subst h1
    push_cast
    rintro ⟨ha, hb⟩
    exact h2 ⟨by exact_mod_cast by simpa using ha, by exact_mod_cast by simpa using hb⟩

theorem axisParam_some_spec {s d lo hi : Int} {a b : ℚ}
    (hsome : axisParam s d lo hi = some (a, b)) (t : ℚ) (h0 : 0 ≤ t) (h1 : t ≤ 1) :
    ((lo : ℚ) ≤ s + t * d ∧ (s : ℚ) + t * d ≤ hi) ↔ (a ≤ t ∧ t ≤ b) := by
  unfold axisParam at hsome
  split_ifs at hsome with hd hin hpos
  · subst hd
    obtain ⟨rfl, rfl⟩ := Prod.mk.injEq .. ▸ (Option.some.injEq .. ▸ hsome)
    push_cast
    constructor
    · intro _
      exact ⟨h0, h1⟩
    · intro _
      constructor
      · exact_mod_cast by simpa using hin.1
      · exact_mod_cast by simpa using hin.2
  · have hdq : (0 : ℚ) < (d : ℚ) := by exact_mod_cast hpos
    obtain ⟨rfl, rfl⟩ := Prod.mk.injEq .. ▸ (Option.some.injEq .. ▸ hsome)
    rw [div_le_iff hdq, le_div_iff hdq]
    push_cast
    constructor <;> intro hc <;> constructor <;> nlinarith [hc.1, hc.2]
  · have hdq : (d : ℚ) < 0 := by
      have : d < 0 := by omega
      exact_mod_cast this
    obtain ⟨rfl, rfl⟩ := Prod.mk.injEq .. ▸ (Option.some.injEq .. ▸ hsome)
    rw [div_le_iff_of_neg hdq, le_div_iff_of_neg hdq]
    push_cast
    constructor <;> intro hc <;> constructor <;> nlinarith [hc.1, hc.2]

/-- Validation of the modelled segment–rectangle test: it decides exactly
whether the closed segment and the closed box share a rational point. -/
theorem lineIntersectsRect_iff (l : Line) (r : Rect) :
    lineIntersectsRect l r = true ↔ ∃ p : ℚ × ℚ, SegMem l p ∧ r.memQ p := by
  unfold lineIntersectsRect
  constructor
  · intro htrue
    rcases hx : axisParam l.start.x (l.endp.x - l.start.x) r.rmin.x r.rmax.x with _ | ⟨xlo, xhi⟩
    · rw [hx] at htrue
      simp at htrue
    rcases hy : axisParam l.start.y (l.endp.y - l.start.y) r.rmin.y r.rmax.y with _ | ⟨ylo, yhi⟩
    · rw [hx, hy] at htrue
      simp at htrue
    rw [hx, hy] at htrue
    simp only [decide_eq_true_eq] at htrue
    set t : ℚ := max 0 (max xlo ylo) with ht
    have h0 : (0 : ℚ) ≤ t := le_max_left _ _
    have h1 : t ≤ 1 := le_trans htrue (min_le_left _ _)
    have hxc := (axisParam_some_spec hx t h0 h1).mpr
      ⟨le_trans (le_max_left _ _) (le_max_right _ _),
       le_trans htrue (le_trans (min_le_right _ _) (min_le_left _ _))⟩
    have hyc := (axisParam_some_spec hy t h0 h1).mpr
      ⟨le_trans (le_max_right _ _) (le_max_right _ _),
       le_trans htrue (le_trans (min_le_right _ _) (min_le_right _ _))⟩
    refine ⟨l.point t, ⟨t, h0, h1, rfl⟩, ?_, ?_, ?_, ?_⟩
    · have hc := hxc.1
      simp only [Line.point]
      push_cast at hc ⊢
      linarith
    · have hc := hxc.2
      simp only [Line.point]
      push_cast at hc ⊢
      linarith
    · have hc := hyc.1
      simp only [Line.point]
      push_cast at hc ⊢
      linarith
    · have hc := hyc.2
      simp only [Line.point]
      push_cast at hc ⊢
      linarith
  · rintro ⟨p, ⟨t, h0, h1, rfl⟩, hm1, hm2, hm3, hm4⟩
    simp only [Line.point] at hm1 hm2 hm3 hm4
    rcases hx : axisParam l.start.x (l.endp.x - l.start.x) r.rmin.x r.rmax.x with _ | ⟨xlo, xhi⟩
    · refine absurd ⟨?_, ?_⟩ (axisParam_none_spec hx t) <;> push_cast at hm1 hm2 ⊢ <;> linarith
    rcases hy : axisParam l.start.y (l.endp.y - l.start.y) r.rmin.y r.rmax.y with _ | ⟨ylo, yhi⟩
    · refine absurd ⟨?_, ?_⟩ (axisParam_none_spec hy t) <;> push_cast at hm3 hm4 ⊢ <;> linarith
    have hxc := (axisParam_some_spec hx t h0 h1).mp
      ⟨by push_cast at hm1 ⊢; linarith, by push_cast at hm2 ⊢; linarith⟩
    have hyc := (axisParam_some_spec hy t h0 h1).mp
      ⟨by push_cast at hm3 ⊢; linarith, by push_cast at hm4 ⊢; linarith⟩
    simp only [decide_eq_true_eq]
    exact le_trans (max_le h0 (max_le hxc.1 hyc.1)) (le_min h1 (le_min hxc.2 hyc.2))

/-- Completeness of the rectangle-rectangle test: two boxes sharing a rational
point satisfy the inclusive overlap test. -/
theorem rectIntersectsRect_of_common (r1 r2 : Rect) (p : ℚ × ℚ)
    (hp1 : r1.memQ p) (hp2 : r2.memQ p) : rectIntersectsRect r1 r2 = true := by
  obtain ⟨a1, b1, c1, d1⟩ := hp1
  obtain ⟨a2, b2, c2, d2⟩ := hp2
  unfold rectIntersectsRect
  simp only [Bool.and_eq_true, decide_eq_true_eq]
  refine ⟨⟨⟨?_, ?_⟩, ?_⟩, ?_⟩
  · exact_mod_cast le_trans a2 b1
  · exact_mod_cast le_trans a1 b2
  · exact_mod_cast le_trans c2 d1
  · exact_mod_cast le_trans c1 d2

/-! ## The spatial tile index (`model/tiling.rs`) -/

/-- `PathId` (src/client/src/common.rs): a process-unique 128-bit identifier;
only generation and equality are used, so it is modelled as `Nat`. -/
abbrev PathId := Nat

/-- `Tiling::TILE_LEN`. -/
def TILE_LEN : Int := 128

/-- `TileId`: integer tile coordinates (the source wraps a
`Coordinate<i32>`). -/
structure TileId where
  tx : Int
  ty : Int
deriving DecidableEq, Repr

/-- `Tiling::tile_rect` (lines 32–37): the square
`[tx·L, (tx+1)·L] × [ty·L, (ty+1)·L]` with `L = TILE_LEN`. -/
def tile_rect (id : TileId) : Rect :=
  mkRect ⟨id.tx * TILE_LEN, id.ty * TILE_LEN⟩ ⟨(id.tx + 1) * TILE_LEN, (id.ty + 1) * TILE_LEN⟩

/-- The inclusive integer range `lo..=hi` as a list. -/
def intRange (lo hi : Int) : List Int :=
  (List.range (hi + 1 - lo).toNat).map (fun (i : Nat) => lo + (i : Int))

/-- `Line::bounding_rect` of the geo crate: the corner-normalized rectangle on
the segment's endpoints. -/
def Line.bounding_rect (l : Line) : Rect := mkRect l.start l.endp

/-- `Tiling::bounding_tile_ids` (lines 39–48), generic over the query geometry
through its bounding rectangle and its intersects-with-rectangle test:
enumerate the grid rectangle of the bounding box (per axis,
`min.div_euclid(TILE_LEN) ..= max.div_euclid(TILE_LEN)`; Euclidean = floor
division since `TILE_LEN > 0`), as the x-major cartesian product, and keep the
tiles whose rectangle the geometry intersects. -/
def boundingTileIds (bbox : Rect) (hits : Rect → Bool) : List TileId :=
  (((intRange (bbox.rmin.x.ediv TILE_LEN) (bbox.rmax.x.ediv TILE_LEN)).bind fun tx =>
      (intRange (bbox.rmin.y.ediv TILE_LEN) (bbox.rmax.y.ediv TILE_LEN)).map fun ty =>
        TileId.mk tx ty)).filter
    fun tid => hits (tile_rect tid)

/-- `bounding_tile_ids` instantiated at a `Line` geometry (used by
`insert_path`; `Line: BoundingRect + Intersects<Rect>`). -/
def lineBoundingTileIds (l : Line) : List TileId :=
  boundingTileIds l.bounding_rect (fun tr => lineIntersectsRect l tr)

/-- `bounding_tile_ids` instantiated at a `Rect` geometry (a rectangle is its
own bounding rectangle). -/
def rectBoundingTileIds (r : Rect) : List TileId :=
  boundingTileIds r (fun tr => rectIntersectsRect r tr)

/-- `LineString::lines()` of the geo crate: the consecutive segments of a
point sequence (`n` points yield `n - 1` segments). -/
def linesOf : List Coord → List Line
  | c1 :: c2 :: rest => ⟨c1, c2⟩ :: linesOf (c2 :: rest)
  | _ => []

/-- The inner per-tile map `FxHashMap<PathId, Vec<Line<i32>>>`, modelled as an
association list (enumerated by `bounding_tile_items`; hash order is
unspecified in Rust, insertion order here). -/
abbrev TileMap := List (PathId × List Line)

/-- `entry(path_id).or_default().push(line)`: append `line` to the entry of
`pid`, creating it at the end when absent. -/
def TileMap.insertLine (m : TileMap) (pid : PathId) (line : Line) : TileMap :=
  match m with
  | [] => [(pid, [line])]
  | e :: rest =>
      if e.1 = pid then (e.1, e.2 ++ [line]) :: rest else e :: TileMap.insertLine rest pid line

/-- Key lookup in the inner map. -/
def TileMap.lookup (m : TileMap) (pid : PathId) : Option (List Line) :=
  match m with
  | [] => none
  | e :: rest => if e.1 = pid then some e.2 else TileMap.lookup rest pid

/-- `retain(|id, _| id != &path_id)`: drop the entry of `pid`, keeping the
others in order. -/
def TileMap.remove (m : TileMap) (pid : PathId) : TileMap :=
  match m with
  | [] => []
  | e :: rest => if e.1 = pid then TileMap.remove rest pid else e :: TileMap.remove rest pid

/-- `tiling::Tiling` (lines 10–14): the tile → (path → segments) map and the
reverse path → tiles map.  The outer hash maps are modelled extensionally as
lookup functions (they are only read through key lookups); the inner per-tile
maps are association lists because queries enumerate their entries. -/
structure Tiling where
  tiles : TileId → Option TileMap
  tile_ids : PathId → Option (List TileId)

/-- `Tiling::default()`. -/
def Tiling.empty : Tiling := ⟨fun _ => none, fun _ => none⟩

/-- The tiles recorded for reverse lookup by one `insert_path` call: the union
of the per-segment candidate tiles.  The source accumulates an `FxHashSet` and
collects it to a `Vec` in unspecified hash order; modelled as first-occurrence
deduplication (membership, the only observable the model's claims use, agrees).
-/
def touchedTiles (coords : List Coord) : List TileId :=
  ((linesOf coords).bind lineBoundingTileIds).dedup

/-- One inner step of `Tiling::insert_path`: register `line` under `tile_id`
for `path_id` (`tiles.entry(tile_id).or_default().entry(path_id)
.or_default().push(line)`). -/
def insertLineAt (tiles : TileId → Option TileMap) (tid : TileId) (pid : PathId)
    (line : Line) : TileId → Option TileMap :=
  Function.update tiles tid (some (((tiles tid).getD []).insertLine pid line))

/-- `Tiling::insert_path` (lines 59–76).  For each segment, in order, register
the segment under each of its candidate tiles; then record the touched-tile
set under `path_id`.  The source asserts that `path_id` was not already
present (the assertion aborts the program; theorems carry the freshness
precondition). -/
def Tiling.insert_path (t : Tiling) (pid : PathId) (coords : List Coord) : Tiling :=
  { tiles :=
      (linesOf coords).foldl
        (fun ts line =>
          (lineBoundingTileIds line).foldl (fun ts tid => insertLineAt ts tid pid line) ts)
        t.tiles,
    tile_ids := Function.update t.tile_ids pid (some (touchedTiles coords)) }

/-- `Tiling::remove_path` (lines 78–86): look up the recorded tiles of
`path_id`, drop its entry from each of them, and drop the reverse-lookup
entry.  The two `expect` calls abort the program when violated; the
corresponding branches stutter here and are excluded by the theorems'
preconditions. -/
def Tiling.remove_path (t : Tiling) (pid : PathId) : Tiling :=
  match t.tile_ids pid with
  | none => t
  | some tids =>
      { tiles :=
          tids.foldl
            (fun ts tid =>
              match ts tid with
              | none => ts
              | some m => Function.update ts tid (some (m.remove pid)))
            t.tiles,
        tile_ids := Function.update t.tile_ids pid none }

/-- `Tiling::clear` (lines 88–91). -/
def Tiling.clear (_t : Tiling) : Tiling := ⟨fun _ => none, fun _ => none⟩

/-- `Tiling::bounding_tile_items` (lines 50–57), generic over the query
geometry: enumerate the intersected tiles and yield every (path id, segment
slice) entry of each, possibly repeating a path id across tiles. -/
def Tiling.boundingTileItems (t : Tiling) (bbox : Rect) (hits : Rect → Bool) :
    List (PathId × List Line) :=
  (boundingTileIds bbox hits).bind fun tid => (t.tiles tid).getD []

/-- `bounding_tile_items` at a rectangle query. -/
def Tiling.boundingTileItemsRect (t : Tiling) (r : Rect) : List (PathId × List Line) :=
  t.boundingTileItems r (fun tr => rectIntersectsRect r tr)

/-- The observable entry of the index at a (tile, path) pair: the segment list
stored under `tiles[tid][pid]`, when both keys are present. -/
def Tiling.entryOpt (t : Tiling) (tid : TileId) (pid : PathId) : Option (List Line) :=
  (t.tiles tid).bind fun m => m.lookup pid

/-! ### Association-list lemmas for the inner per-tile maps -/

theorem TileMap.lookup_insertLine_self (m : TileMap) (pid : PathId) (line : Line) :
    (m.insertLine pid line).lookup pid = some ((m.lookup pid).getD [] ++ [line]) := by
  induction m with
  | nil => simp [TileMap.insertLine, TileMap.lookup]
  | cons e rest ih =>
      by_cases he : e.1 = pid
      · simp [TileMap.insertLine, TileMap.lookup, he]
      · simp [TileMap.insertLine, TileMap.lookup, he, ih]

theorem TileMap.lookup_insertLine_other (m : TileMap) (pid pid' : PathId) (line : Line)
    (h : pid' ≠ pid) : (m.insertLine pid line).lookup pid' = m.lookup pid' := by
  induction m with
  | nil => simp [TileMap.insertLine, TileMap.lookup, Ne.symm h]
  | cons e rest ih =>
      by_cases he : e.1 = pid
      · simp [TileMap.insertLine, TileMap.lookup, he, h, Ne.symm h]
      · by_cases he' : e.1 = pid'
        · simp [TileMap.insertLine, TileMap.lookup, he, he', h, Ne.symm h]
        · simp [TileMap.insertLine, TileMap.lookup, he, he', ih]

theorem TileMap.lookup_remove_self (m : TileMap) (pid : PathId) :
    (m.remove pid).lookup pid = none := by
  induction m with
  | nil => simp [TileMap.remove, TileMap.lookup]
  | cons e rest ih =>
      by_cases he : e.1 = pid <;> simp [TileMap.remove, TileMap.lookup, he, ih]

theorem TileMap.lookup_remove_other (m : TileMap) (pid pid' : PathId) (h : pid' ≠ pid) :
    (m.remove pid).lookup pid' = m.lookup pid' := by
  induction m with
  | nil => simp [TileMap.remove, TileMap.lookup]
  | cons e rest ih =>
      by_cases he : e.1 = pid
      · simp [TileMap.remove, TileMap.lookup, he, Ne.symm h, ih]
      · by_cases he' : e.1 = pid'
        · simp [TileMap.remove, TileMap.lookup, he, he', h]
        · simp [TileMap.remove, TileMap.lookup, he, he', ih]

theorem TileMap.remove_insertLine (m : TileMap) (pid : PathId) (line : Line) :
    (m.insertLine pid line).remove pid = m.remove pid := by
  induction m with
  | nil => simp [TileMap.insertLine, TileMap.remove]
  | cons e rest ih =>
      by_cases he : e.1 = pid
      · simp [TileMap.insertLine, TileMap.remove, he]
      · simp [TileMap.insertLine, TileMap.remove, he, ih]

theorem TileMap.remove_eq_self (m : TileMap) (pid : PathId) (h : m.lookup pid = none) :
    m.remove pid = m := by
  induction m with
  | nil => simp [TileMap.remove]
  | cons e rest ih =>
      by_cases he : e.1 = pid
      · simp [TileMap.lookup, he] at h
      · simp [TileMap.lookup, he] at h
        simp [TileMap.remove, he, ih h]

theorem TileMap.lookup_mem (m : TileMap) (pid : PathId) (ls : List Line)
    (h : m.lookup pid = some ls) : (pid, ls) ∈ m := by
  induction m with
  | nil => simp [TileMap.lookup] at h
  | cons e rest ih =>
      by_cases he : e.1 = pid
      · simp only [TileMap.lookup, he, if_pos] at h
        obtain ⟨he1, he2⟩ := e
        simp only at he
        subst he
        simp only [Option.some.injEq] at h
        subst h
        exact List.mem_cons_self _ _
      · simp only [TileMap.lookup, he, if_neg, ite_false] at h
        exact List.mem_cons_of_mem _ (ih h)

/-! ### Entry-level characterization of the index operations -/

theorem nodup_intRange (lo hi : Int) : (intRange lo hi).Nodup := by
  unfold intRange
  refine List.Nodup.map ?_ (List.nodup_range _)
  intro a b hab
  simp only [add_right_inj, Nat.cast_inj] at hab
  exact hab

theorem mem_intRange (lo hi z : Int) : z ∈ intRange lo hi ↔ lo ≤ z ∧ z ≤ hi := by
  unfold intRange
  simp only [List.mem_map, List.mem_range]
  constructor
  · rintro ⟨i, hi', rfl⟩
    omega
  · rintro ⟨h1, h2⟩
    exact ⟨(z - lo).toNat, by omega, by omega⟩

theorem nodup_boundingTileIds (bbox : Rect) (hits : Rect → Bool) :
    (boundingTileIds bbox hits).Nodup := by
  apply List.Nodup.filter
  rw [List.nodup_bind]
  constructor
  · intro tx _
    refine List.Nodup.map ?_ (nodup_intRange _ _)
    intro a b hab
    cases hab
    rfl
  · refine List.Pairwise.imp ?_ (nodup_intRange _ _)
    intro a b hab tid h1 h2
    simp only [List.mem_map] at h1 h2
    obtain ⟨ty1, _, rfl⟩ := h1
    obtain ⟨ty2, _, h⟩ := h2
    cases h
    exact hab rfl

theorem nodup_lineBoundingTileIds (l : Line) : (lineBoundingTileIds l).Nodup :=
  nodup_boundingTileIds _ _

theorem mem_boundingTileIds (bbox : Rect) (hits : Rect → Bool) (tid : TileId) :
    tid ∈ boundingTileIds bbox hits ↔
      bbox.rmin.x.ediv TILE_LEN ≤ tid.tx ∧ tid.tx ≤ bbox.rmax.x.ediv TILE_LEN ∧
      bbox.rmin.y.ediv TILE_LEN ≤ tid.ty ∧ tid.ty ≤ bbox.rmax.y.ediv TILE_LEN ∧
      hits (tile_rect tid) = true := by
  unfold boundingTileIds
  simp only [List.mem_filter, List.mem_bind, List.mem_map, mem_intRange]
  constructor
  · rintro ⟨⟨tx, ⟨h1, h2⟩, ty, ⟨h3, h4⟩, rfl⟩, h5⟩
    exact ⟨h1, h2, h3, h4, h5⟩
  · rintro ⟨h1, h2, h3, h4, h5⟩
    exact ⟨⟨tid.tx, ⟨h1, h2⟩, tid.ty, ⟨h3, h4⟩, rfl⟩, h5⟩

/-- The entry stored by one `insert_path` at a given tile: the path's segments
whose candidate tiles include that tile, in path order. -/
def newSegs (coords : List Coord) (tid : TileId) : List Line :=
  (linesOf coords).filter fun l => decide (tid ∈ lineBoundingTileIds l)

theorem foldl_insertLineAt_at (tids : List TileId) (ts : TileId → Option TileMap)
    (pid : PathId) (line : Line) (tid : TileId) (hnd : tids.Nodup) :
    (tids.foldl (fun ts t => insertLineAt ts t pid line) ts) tid =
      if tid ∈ tids then some (((ts tid).getD []).insertLine pid line) else ts tid := by
  induction tids generalizing ts with
  | nil => simp
  | cons t rest ih =>
      obtain ⟨hnotin, hnd'⟩ := List.nodup_cons.mp hnd
      simp only [List.foldl_cons]
      rw [ih _ hnd']
      by_cases htid : tid ∈ rest
      · have hne : tid ≠ t := fun hc => hnotin (hc ▸ htid)
        simp [htid, insertLineAt, Function.update_noteq hne, List.mem_cons]
      · by_cases hteq : tid = t
        · subst hteq
          simp [htid, insertLineAt, Function.update_same]
        · simp [htid, hteq, insertLineAt, Function.update_noteq hteq]

theorem getD_lookup (o : Option TileMap) (pid : PathId) :
    (o.getD []).lookup pid = o.bind (fun m => m.lookup pid) := by
  cases o <;> simp [TileMap.lookup]

theorem foldl_insertLineAt_entry_other (tids : List TileId) (ts : TileId → Option TileMap)
    (pid pid' : PathId) (line : Line) (h : pid' ≠ pid) (tid : TileId) :
    ((tids.foldl (fun ts t => insertLineAt ts t pid line) ts) tid).bind
        (fun m => m.lookup pid') =
      (ts tid).bind (fun m => m.lookup pid') := by
  induction tids generalizing ts with
  | nil => simp
  | cons t rest ih =>
      simp only [List.foldl_cons]
      rw [ih]
      by_cases hteq : tid = t
      · subst hteq
        rw [insertLineAt, Function.update_same, Option.some_bind,
          TileMap.lookup_insertLine_other _ _ _ _ h, getD_lookup]
      · rw [insertLineAt, Function.update_noteq hteq]

theorem foldl_lines_entry (lines : List Line) (ts : TileId → Option TileMap)
    (pid : PathId) (tid : TileId) :
    ((lines.filter fun l => decide (tid ∈ lineBoundingTileIds l)) = [] →
      ((lines.foldl (fun ts line =>
          (lineBoundingTileIds line).foldl (fun ts t => insertLineAt ts t pid line) ts) ts)
          tid).bind (fun m => m.lookup pid) =
        (ts tid).bind (fun m => m.lookup pid)) ∧
    ((lines.filter fun l => decide (tid ∈ lineBoundingTileIds l)) ≠ [] →
      ((lines.foldl (fun ts line =>
          (lineBoundingTileIds line).foldl (fun ts t => insertLineAt ts t pid line) ts) ts)
          tid).bind (fun m => m.lookup pid) =
        some (((ts tid).bind (fun m => m.lookup pid)).getD [] ++
          (lines.filter fun l => decide (tid ∈ lineBoundingTileIds l)))) := by
  induction lines generalizing ts with
  | nil => exact ⟨fun _ => rfl, fun hc => absurd rfl hc⟩
  | cons l rest ih =>
      simp only [List.foldl_cons]
      by_cases hmem : tid ∈ lineBoundingTileIds l
      · rw [List.filter_cons_of_pos (by simpa using hmem)]
        have hentry1 :
            (((lineBoundingTileIds l).foldl (fun ts t => insertLineAt ts t pid l) ts)
              tid).bind (fun m => m.lookup pid) =
            some (((ts tid).bind (fun m => m.lookup pid)).getD [] ++ [l]) := by
          rw [foldl_insertLineAt_at _ _ _ _ _ (nodup_lineBoundingTileIds l), if_pos hmem,
            Option.some_bind, TileMap.lookup_insertLine_self, getD_lookup]
        obtain ⟨ihe, ihne⟩ := ih ((lineBoundingTileIds l).foldl (fun ts t => insertLineAt ts t pid l) ts)
        constructor
        · intro hc
          exact absurd hc (by simp)
        · intro _
          by_cases hrest : (rest.filter fun l => decide (tid ∈ lineBoundingTileIds l)) = []
          · rw [ihe hrest, hentry1, hrest]
          · rw [ihne hrest, hentry1]
            simp
      · rw [List.filter_cons_of_neg (by simpa using hmem)]
        have hts1 : ((lineBoundingTileIds l).foldl (fun ts t => insertLineAt ts t pid l) ts) tid
            = ts tid := by
          rw [foldl_insertLineAt_at _ _ _ _ _ (nodup_lineBoundingTileIds l), if_neg hmem]
        obtain ⟨ihe, ihne⟩ :=
          ih ((lineBoundingTileIds l).foldl (fun ts t => insertLineAt ts t pid l) ts)
        exact ⟨fun hc => by rw [ihe hc, hts1], fun hc => by rw [ihne hc, hts1]⟩

theorem foldl_lines_entry_other (lines : List Line) (ts : TileId → Option TileMap)
    (pid pid' : PathId) (h : pid' ≠ pid) (tid : TileId) :
    ((lines.foldl (fun ts line =>
        (lineBoundingTileIds line).foldl (fun ts t => insertLineAt ts t pid line) ts) ts)
        tid).bind (fun m => m.lookup pid') =
      (ts tid).bind (fun m => m.lookup pid') := by
  induction lines generalizing ts with
  | nil => rfl
  | cons l rest ih =>
      simp only [List.foldl_cons]
      rw [ih, foldl_insertLineAt_entry_other _ _ _ _ _ h]

/-- Entry of the inserted path after `insert_path`, at tiles its segments do
not reach: unchanged. -/
theorem entryOpt_insert_path_self_nil (t : Tiling) (pid : PathId) (coords : List Coord)
    (tid : TileId) (h : newSegs coords tid = []) :
    (t.insert_path pid coords).entryOpt tid pid = t.entryOpt tid pid :=
  (foldl_lines_entry (linesOf coords) t.tiles pid tid).1 h

/-- Entry of the inserted path after `insert_path`, at tiles its segments
reach: the previous entry extended with the new segments. -/
theorem entryOpt_insert_path_self_cons (t : Tiling) (pid : PathId) (coords : List Coord)
    (tid : TileId) (h : newSegs coords tid ≠ []) :
    (t.insert_path pid coords).entryOpt tid pid =
      some ((t.entryOpt tid pid).getD [] ++ newSegs coords tid) :=
  (foldl_lines_entry (linesOf coords) t.tiles pid tid).2 h

/-- `insert_path` does not disturb other paths' entries. -/
theorem entryOpt_insert_path_other (t : Tiling) (pid pid' : PathId) (coords : List Coord)
    (h : pid' ≠ pid) (tid : TileId) :
    (t.insert_path pid coords).entryOpt tid pid' = t.entryOpt tid pid' :=
  foldl_lines_entry_other (linesOf coords) t.tiles pid pid' h tid

theorem tile_ids_insert_path (t : Tiling) (pid : PathId) (coords : List Coord) (pid' : PathId) :
    (t.insert_path pid coords).tile_ids pid' =
      if pid' = pid then some (touchedTiles coords) else t.tile_ids pid' := by
  simp [Tiling.insert_path, Function.update_apply]

theorem mem_touchedTiles (coords : List Coord) (tid : TileId) :
    tid ∈ touchedTiles coords ↔ ∃ l ∈ linesOf coords, tid ∈ lineBoundingTileIds l := by
  simp [touchedTiles, List.mem_dedup, List.mem_bind]

theorem newSegs_ne_nil_iff (coords : List Coord) (tid : TileId) :
    newSegs coords tid ≠ [] ↔ tid ∈ touchedTiles coords := by
  rw [mem_touchedTiles, Ne, newSegs, List.filter_eq_nil_iff]
  push_neg
  simp

theorem foldl_removeAt_entry_self (tids : List TileId) (ts : TileId → Option TileMap)
    (pid : PathId) (tid : TileId) :
    ((tids.foldl
        (fun ts t =>
          match ts t with
          | none => ts
          | some m => Function.update ts t (some (m.remove pid)))
        ts) tid).bind (fun m => m.lookup pid) =
      if tid ∈ tids then none else (ts tid).bind (fun m => m.lookup pid) := by
  induction tids generalizing ts with
  | nil => simp
  | cons t rest ih =>
      simp only [List.foldl_cons]
      rw [ih]
      by_cases htid : tid ∈ rest
      · simp [htid, List.mem_cons]
      · by_cases hteq : tid = t
        · subst hteq
          simp only [htid, if_neg, List.mem_cons, true_or, if_pos, not_false_eq_true]
          cases hts : ts tid with
          | none => simp [hts]
          | some m => simp [Function.update_same, TileMap.lookup_remove_self]
        · have hnmem : ¬ tid ∈ (t :: rest) := by simp [hteq, htid]
          simp only [htid, if_neg, hnmem, not_false_eq_true]
          cases hts : ts t with
          | none => rfl
          | some m => simp [Function.update_noteq hteq]

theorem foldl_removeAt_entry_other (tids : List TileId) (ts : TileId → Option TileMap)
    (pid pid' : PathId) (h : pid' ≠ pid) (tid : TileId) :
    ((tids.foldl
        (fun ts t =>
          match ts t with
          | none => ts
          | some m => Function.update ts t (some (m.remove pid)))
        ts) tid).bind (fun m => m.lookup pid') =
      (ts tid).bind (fun m => m.lookup pid') := by
  induction tids generalizing ts with
  | nil => rfl
  | cons t rest ih =>
      simp only [List.foldl_cons]
      rw [ih]
      cases hts : ts t with
      | none => rfl
      | some m =>
          by_cases hteq : tid = t
          · subst hteq
            simp [Function.update_same, hts, TileMap.lookup_remove_other _ _ _ h]
          · simp [Function.update_noteq hteq]

theorem tile_ids_remove_path (t : Tiling) (pid : PathId) (tids : List TileId)
    (h : t.tile_ids pid = some tids) (pid' : PathId) :
    (t.remove_path pid).tile_ids pid' = if pid' = pid then none else t.tile_ids pid' := by
  simp [Tiling.remove_path, h, Function.update_apply]

theorem entryOpt_remove_path_self (t : Tiling) (pid : PathId) (tids : List TileId)
    (h : t.tile_ids pid = some tids) (tid : TileId) :
    (t.remove_path pid).entryOpt tid pid =
      if tid ∈ tids then none else t.entryOpt tid pid := by
  unfold Tiling.remove_path
  rw [h]
  exact foldl_removeAt_entry_self tids t.tiles pid tid

theorem entryOpt_remove_path_other (t : Tiling) (pid pid' : PathId) (h : pid' ≠ pid)
    (tid : TileId) :
    (t.remove_path pid).entryOpt tid pid' = t.entryOpt tid pid' := by
  unfold Tiling.remove_path
  cases htids : t.tile_ids pid with
  | none => rfl
  | some tids => exact foldl_removeAt_entry_other tids t.tiles pid pid' h tid

/-- C7 — Tiling round-trip: inserting a path id that is not present in the
index (neither in the reverse-lookup map nor in any tile entry) and then
removing it returns the index to its pre-insert state: every reverse-lookup
entry and every (tile, path) entry is as before, and in particular no residual
tile entry or reverse-lookup entry for that path remains.  (Tiles whose inner
path map became empty remain as empty maps, exactly as in the source, which
never prunes them; entry-wise the index is unchanged.) -/
theorem tiling_round_trip (t : Tiling) (pid : PathId) (coords : List Coord)
    (h1 : t.tile_ids pid = none) (h2 : ∀ tid, t.entryOpt tid pid = none) :
    (∀ pid', ((t.insert_path pid coords).remove_path pid).tile_ids pid' = t.tile_ids pid') ∧
    (∀ tid pid',
      ((t.insert_path pid coords).remove_path pid).entryOpt tid pid' = t.entryOpt tid pid') ∧
    ((t.insert_path pid coords).remove_path pid).tile_ids pid = none ∧
    (∀ tid, ((t.insert_path pid coords).remove_path pid).entryOpt tid pid = none) := by
  have hins_ids : (t.insert_path pid coords).tile_ids pid = some (touchedTiles coords) := by
    rw [tile_ids_insert_path, if_pos rfl]
  have hids : ∀ pid',
      ((t.insert_path pid coords).remove_path pid).tile_ids pid' = t.tile_ids pid' := by
    intro pid'
    rw [tile_ids_remove_path _ _ _ hins_ids]
    by_cases hp : pid' = pid
    · rw [if_pos hp, hp, h1]
    · rw [if_neg hp, tile_ids_insert_path, if_neg hp]
  have hentries : ∀ tid pid',
      ((t.insert_path pid coords).remove_path pid).entryOpt tid pid' = t.entryOpt tid pid' := by
    intro tid pid'
    by_cases hp : pid' = pid
    · subst hp
      rw [entryOpt_remove_path_self _ _ _ hins_ids]
      by_cases htid : tid ∈ touchedTiles coords
      · rw [if_pos htid, h2]
      · rw [if_neg htid, entryOpt_insert_path_self_nil]
        rw [← newSegs_ne_nil_iff] at htid
        simpa using htid
    · rw [entryOpt_remove_path_other _ _ _ hp, entryOpt_insert_path_other _ _ _ _ hp]
  exact ⟨hids, hentries, by rw [hids, h1], fun tid => by rw [hentries, h2]⟩

/-- C7 witness: round-trip of a two-point path on the empty index. -/
theorem tiling_round_trip_witness :
    ((Tiling.empty.insert_path 0 [⟨0, 0⟩, ⟨10, 0⟩]).remove_path 0).tile_ids 0 = none ∧
    ((Tiling.empty.insert_path 0 [⟨0, 0⟩, ⟨10, 0⟩]).remove_path 0).entryOpt ⟨0, 0⟩ 0 = none ∧
    ((Tiling.empty.insert_path 0 [⟨0, 0⟩, ⟨10, 0⟩]).remove_path 0).tile_ids 7 =
      Tiling.empty.tile_ids 7 := by
  have h := tiling_round_trip Tiling.empty 0 [⟨0, 0⟩, ⟨10, 0⟩] rfl (fun _ => rfl)
  exact ⟨h.2.2.1, h.2.2.2 ⟨0, 0⟩, h.1 7⟩

/-! ### The tile containing a point, and candidate-tile membership -/

theorem TILE_LEN_cast_pos : (0 : ℚ) < ((TILE_LEN : Int) : ℚ) := by
  norm_num [TILE_LEN]

theorem ediv_TILE_eq_floor (z : Int) :
    z.ediv TILE_LEN = ⌊(z : ℚ) / ((TILE_LEN : Int) : ℚ)⌋ := by
  have h := Rat.floor_intCast_div_natCast z 128
  have hc : ((TILE_LEN : Int) : ℚ) = ((128 : ℕ) : ℚ) := by norm_num [TILE_LEN]
  rw [hc, h]
  rfl

/-- The tile containing a rational point (componentwise floor division). -/
def tileOf (p : ℚ × ℚ) : TileId :=
  ⟨⌊p.1 / ((TILE_LEN : Int) : ℚ)⌋, ⌊p.2 / ((TILE_LEN : Int) : ℚ)⌋⟩

theorem tile_rect_rmin_x (id : TileId) : (tile_rect id).rmin.x = id.tx * TILE_LEN := by
  simp only [tile_rect, mkRect_rmin_x, Coord_mk_x, TILE_LEN]
  omega

theorem tile_rect_rmin_y (id : TileId) : (tile_rect id).rmin.y = id.ty * TILE_LEN := by
  simp only [tile_rect, mkRect_rmin_y, Coord_mk_y, TILE_LEN]
  omega

theorem tile_rect_rmax_x (id : TileId) : (tile_rect id).rmax.x = (id.tx + 1) * TILE_LEN := by
  simp only [tile_rect, mkRect_rmax_x, Coord_mk_x, TILE_LEN]
  omega

theorem tile_rect_rmax_y (id : TileId) : (tile_rect id).rmax.y = (id.ty + 1) * TILE_LEN := by
  simp only [tile_rect, mkRect_rmax_y, Coord_mk_y, TILE_LEN]
  omega

/-- A rational point lies in the closed square of its own tile. -/
theorem memQ_tile_rect_tileOf (p : ℚ × ℚ) : (tile_rect (tileOf p)).memQ p := by
  obtain ⟨px, py⟩ := p
  have hL := TILE_LEN_cast_pos
  refine ⟨?_, ?_, ?_, ?_⟩ <;>
    simp only [tileOf, tile_rect_rmin_x, tile_rect_rmin_y, tile_rect_rmax_x,
      tile_rect_rmax_y] <;>
    push_cast
  · exact (le_div_iff hL).mp (Int.floor_le _)
  · exact le_of_lt ((div_lt_iff hL).mp (Int.lt_floor_add_one _))
  · exact (le_div_iff hL).mp (Int.floor_le _)
  · exact le_of_lt ((div_lt_iff hL).mp (Int.lt_floor_add_one _))

theorem ediv_le_floor_div (z : Int) (q : ℚ) (h : (z : ℚ) ≤ q) :
    z.ediv TILE_LEN ≤ ⌊q / ((TILE_LEN : Int) : ℚ)⌋ := by
  rw [ediv_TILE_eq_floor]
  refine Int.floor_le_floor ?_
  gcongr
  exact le_of_lt TILE_LEN_cast_pos

theorem floor_div_le_ediv (z : Int) (q : ℚ) (h : q ≤ (z : ℚ)) :
    ⌊q / ((TILE_LEN : Int) : ℚ)⌋ ≤ z.ediv TILE_LEN := by
  rw [ediv_TILE_eq_floor]
  refine Int.floor_le_floor ?_
  gcongr
  exact le_of_lt TILE_LEN_cast_pos

theorem convex_bounds (a b t : ℚ) (h0 : 0 ≤ t) (h1 : t ≤ 1) :
    min a b ≤ a + t * (b - a) ∧ a + t * (b - a) ≤ max a b := by
  rcases le_total a b with h | h
  · rw [min_eq_left h, max_eq_right h]
    constructor <;> nlinarith
  · rw [min_eq_right h, max_eq_left h]
    constructor <;> nlinarith

/-- Coordinates of a segment point lie between the endpoint coordinates. -/
theorem segMem_coord_bounds (l : Line) (p : ℚ × ℚ) (hp : SegMem l p) :
    ((min l.start.x l.endp.x : Int) : ℚ) ≤ p.1 ∧ p.1 ≤ ((max l.start.x l.endp.x : Int) : ℚ) ∧
    ((min l.start.y l.endp.y : Int) : ℚ) ≤ p.2 ∧ p.2 ≤ ((max l.start.y l.endp.y : Int) : ℚ) := by
  obtain ⟨t, h0, h1, rfl⟩ := hp
  simp only [Line.point]
  have hx := convex_bounds (l.start.x : ℚ) (l.endp.x : ℚ) t h0 h1
  have hy := convex_bounds (l.start.y : ℚ) (l.endp.y : ℚ) t h0 h1
  push_cast
  exact ⟨hx.1, hx.2, hy.1, hy.2⟩

/-- The tile of a point of a segment is among the segment's candidate tiles. -/
theorem tileOf_mem_lineBoundingTileIds (l : Line) (p : ℚ × ℚ) (hp : SegMem l p) :
    tileOf p ∈ lineBoundingTileIds l := by
  obtain ⟨b1, b2, b3, b4⟩ := segMem_coord_bounds l p hp
  rw [lineBoundingTileIds, mem_boundingTileIds]
  refine ⟨?_, ?_, ?_, ?_, ?_⟩
  · rw [Line.bounding_rect, mkRect_rmin_x]
    exact ediv_le_floor_div _ _ b1
  · rw [Line.bounding_rect, mkRect_rmax_x]
    exact floor_div_le_ediv _ _ b2
  · rw [Line.bounding_rect, mkRect_rmin_y]
    exact ediv_le_floor_div _ _ b3
  · rw [Line.bounding_rect, mkRect_rmax_y]
    exact floor_div_le_ediv _ _ b4
  · exact (lineIntersectsRect_iff l _).mpr ⟨p, hp, memQ_tile_rect_tileOf p⟩

/-- The tile of a point of a rectangle is among the rectangle's candidate
tiles. -/
theorem tileOf_mem_rectBoundingTileIds (r : Rect) (p : ℚ × ℚ) (hp : r.memQ p) :
    tileOf p ∈ rectBoundingTileIds r := by
  obtain ⟨b1, b2, b3, b4⟩ := hp
  rw [rectBoundingTileIds, mem_boundingTileIds]
  exact ⟨ediv_le_floor_div _ _ b1, floor_div_le_ediv _ _ b2,
    ediv_le_floor_div _ _ b3, floor_div_le_ediv _ _ b4,
    rectIntersectsRect_of_common r _ p ⟨b1, b2, b3, b4⟩ (memQ_tile_rect_tileOf p)⟩

/-! ### C1 — query completeness over any insertion history -/

/-- A `Tiling` built from empty by one `insert_path` call per listed path (how
`Model` populates its index). -/
def Tiling.fromPaths (paths : List (PathId × List Coord)) : Tiling :=
  paths.foldl (fun t e => t.insert_path e.1 e.2) Tiling.empty

theorem boundingTileItemsRect_eq (t : Tiling) (r : Rect) :
    t.boundingTileItemsRect r =
      (rectBoundingTileIds r).bind fun tid => (t.tiles tid).getD [] := rfl

theorem foldl_insert_entryOpt_notmem (paths : List (PathId × List Coord)) (t : Tiling)
    (pid : PathId) (tid : TileId) (h : pid ∉ paths.map Prod.fst) :
    (paths.foldl (fun t e => t.insert_path e.1 e.2) t).entryOpt tid pid =
      t.entryOpt tid pid := by
  induction paths generalizing t with
  | nil => rfl
  | cons e rest ih =>
      simp only [List.map_cons, List.mem_cons, not_or] at h
      simp only [List.foldl_cons]
      rw [ih _ h.2, entryOpt_insert_path_other t e.1 pid e.2 h.1 tid]

theorem foldl_insert_entryOpt (paths : List (PathId × List Coord)) (t : Tiling)
    (pid : PathId) (coords : List Coord) (tid : TileId)
    (hnd : (paths.map Prod.fst).Nodup) (hmem : (pid, coords) ∈ paths)
    (h0 : t.entryOpt tid pid = none) :
    (paths.foldl (fun t e => t.insert_path e.1 e.2) t).entryOpt tid pid =
      if newSegs coords tid = [] then none else some (newSegs coords tid) := by
  induction paths generalizing t with
  | nil => cases hmem
  | cons e rest ih =>
      simp only [List.map_cons, List.nodup_cons] at hnd
      simp only [List.foldl_cons]
      rcases List.mem_cons.mp hmem with heq | hrest
      · obtain rfl := heq.symm
        have hnot : pid ∉ rest.map Prod.fst := by simpa using hnd.1
        rw [foldl_insert_entryOpt_notmem rest _ pid tid hnot]
        by_cases hn : newSegs coords tid = []
        · rw [if_pos hn, entryOpt_insert_path_self_nil t pid coords tid hn, h0]
        · rw [if_neg hn, entryOpt_insert_path_self_cons t pid coords tid hn, h0]
          simp
      · have hne : pid ≠ e.1 := by
          intro hc
          exact hnd.1 (hc ▸ List.mem_map_of_mem Prod.fst hrest)
        refine ih _ hnd.2 hrest ?_
        rw [entryOpt_insert_path_other t e.1 pid e.2 hne tid]
        exact h0

/-- **C1** (Tiling query completeness): for every set of paths inserted into
the index via `insert_path` (with their fresh, pairwise-distinct ids), every
query rectangle `R`, and every segment of an inserted path that intersects `R`
(shares a rational point with it, the semantics of the geo crate exact
intersection test), a pair for that path id appears in the output of
`bounding_tile_items(R)`. -/
theorem tiling_query_completeness (paths : List (PathId × List Coord))
    (pid : PathId) (coords : List Coord) (R : Rect) (l : Line) (p : ℚ × ℚ)
    (hnd : (paths.map Prod.fst).Nodup) (hmem : (pid, coords) ∈ paths)
    (hl : l ∈ linesOf coords) (hseg : SegMem l p) (hR : R.memQ p) :
    ∃ segs, (pid, segs) ∈ (Tiling.fromPaths paths).boundingTileItemsRect R := by
  have htid : tileOf p ∈ lineBoundingTileIds l := tileOf_mem_lineBoundingTileIds l p hseg
  have htouched : tileOf p ∈ touchedTiles coords :=
    (mem_touchedTiles coords _).mpr ⟨l, hl, htid⟩
  have hns : newSegs coords (tileOf p) ≠ [] := (newSegs_ne_nil_iff coords _).mpr htouched
  have hentry : (Tiling.fromPaths paths).entryOpt (tileOf p) pid =
      some (newSegs coords (tileOf p)) := by
    rw [Tiling.fromPaths, foldl_insert_entryOpt paths Tiling.empty pid coords _ hnd hmem rfl,
      if_neg hns]
  rw [Tiling.entryOpt] at hentry
  cases hm : (Tiling.fromPaths paths).tiles (tileOf p) with
  | none => rw [hm] at hentry; cases hentry
  | some m =>
      rw [hm, Option.some_bind] at hentry
      refine ⟨newSegs coords (tileOf p), ?_⟩
      rw [boundingTileItemsRect_eq, List.mem_bind]
      refine ⟨tileOf p, tileOf_mem_rectBoundingTileIds R p hR, ?_⟩
      rw [hm]
      exact TileMap.lookup_mem m pid _ hentry

theorem tiling_query_completeness_witness :
    ∃ segs, ((0 : PathId), segs) ∈
      (Tiling.fromPaths [(0, [⟨0, 0⟩, ⟨10, 0⟩])]).boundingTileItemsRect
        ⟨⟨0, 0⟩, ⟨5, 5⟩⟩ :=
  tiling_query_completeness [(0, [⟨0, 0⟩, ⟨10, 0⟩])] 0 [⟨0, 0⟩, ⟨10, 0⟩]
    ⟨⟨0, 0⟩, ⟨5, 5⟩⟩ ⟨⟨0, 0⟩, ⟨10, 0⟩⟩ (0, 0) (by decide) (by decide)
    (by simp [linesOf]) ⟨0, le_refl 0, by norm_num, by simp [Line.point]⟩
    (by norm_num [Rect.memQ])

/-! ### C9 — segment-free paths and the index -/

/-- `RenderablePath::new` (common.rs lines 77–92), restricted to its acceptance
behaviour on the coordinate list: it fails exactly when
`path.coords.bounding_rect()` is `None`, which for a line string means the
coordinate list is empty.  A one-point path is accepted. -/
def RenderablePath.new (coords : List Coord) : Option (List Coord) :=
  if coords.isEmpty then none else some coords

/-- **C9 counterexample**: the one-point path `[(0,0)]` is accepted by
`RenderablePath::new`, has no line segments, and yet `insert_path` registers
it in the index with an empty tile list — a segment-free path (registered id
occupying no tile) does reach and enter the index. -/
theorem segment_free_path_counterexample :
    RenderablePath.new [⟨0, 0⟩] = some [⟨0, 0⟩] ∧
    linesOf [⟨0, 0⟩] = [] ∧
    (Tiling.empty.insert_path 0 [⟨0, 0⟩]).tile_ids 0 = some [] :=
  ⟨rfl, rfl, rfl⟩

/-- **C9** (amended): a path with at least two coordinate points always has at
least one segment, and `insert_path` registers it with a nonempty tile list
(it occupies at least one tile).  Only one-point paths — which
`RenderablePath::new` accepts — break the claim. -/
theorem paths_occupy_tiles (t : Tiling) (pid : PathId) (coords : List Coord)
    (h : 2 ≤ coords.length) :
    linesOf coords ≠ [] ∧
    ∃ tids, (t.insert_path pid coords).tile_ids pid = some tids ∧ tids ≠ [] := by
  match coords, h with
  | c1 :: c2 :: rest, _ =>
    refine ⟨by simp [linesOf], touchedTiles (c1 :: c2 :: rest), ?_, ?_⟩
    · rw [tile_ids_insert_path, if_pos rfl]
    · have hl : (⟨c1, c2⟩ : Line) ∈ linesOf (c1 :: c2 :: rest) := by
        simp [linesOf]
      have hseg : SegMem ⟨c1, c2⟩ ((⟨c1, c2⟩ : Line).point 0) :=
        ⟨0, le_refl 0, by norm_num, rfl⟩
      have htid := tileOf_mem_lineBoundingTileIds ⟨c1, c2⟩ _ hseg
      have : tileOf ((⟨c1, c2⟩ : Line).point 0) ∈ touchedTiles (c1 :: c2 :: rest) :=
        (mem_touchedTiles _ _).mpr ⟨⟨c1, c2⟩, hl, htid⟩
      exact fun hc => by rw [hc] at this; cases this

theorem paths_occupy_tiles_witness :
    linesOf [⟨0, 0⟩, ⟨10, 0⟩] ≠ [] ∧
    ∃ tids, (Tiling.empty.insert_path 0 [⟨0, 0⟩, ⟨10, 0⟩]).tile_ids 0 = some tids ∧
      tids ≠ [] :=
  paths_occupy_tiles Tiling.empty 0 [⟨0, 0⟩, ⟨10, 0⟩] (by decide)

/-! ### C8 — the bidirectional index invariant over all reachable states -/

/-- Ghost-extended index state: the `Tiling` paired with the coordinate lists
of the currently inserted paths (the information the `Model` holds beside the
index and feeds into `insert_path`). -/
abbrev TState := Tiling × (PathId → Option (List Coord))

/-- One step of the index API.  `insert` carries the source's assertion that
the path id is fresh, `remove` the `expect` that it is registered. -/
inductive TStep : TState → TState → Prop
  | insert (t : Tiling) (g : PathId → Option (List Coord)) (pid : PathId)
      (coords : List Coord) (h : t.tile_ids pid = none) :
      TStep (t, g) (t.insert_path pid coords, Function.update g pid (some coords))
  | remove (t : Tiling) (g : PathId → Option (List Coord)) (pid : PathId)
      (tids : List TileId) (h : t.tile_ids pid = some tids) :
      TStep (t, g) (t.remove_path pid, Function.update g pid none)
  | clear (t : Tiling) (g : PathId → Option (List Coord)) :
      TStep (t, g) (t.clear, fun _ => none)

/-- Index states reachable from the empty index by the API. -/
def TReachable (s : TState) : Prop :=
  Relation.ReflTransGen TStep (Tiling.empty, fun _ => none) s

/-- The entry-level invariant tying the index to the inserted paths: the
reverse-lookup entry of a path is exactly its touched-tile set, and the
(tile, path) entry is exactly the path's segments whose candidate tiles
include that tile (present iff nonempty). -/
def TInv (s : TState) : Prop :=
  (∀ pid, s.1.tile_ids pid = (s.2 pid).map touchedTiles) ∧
  (∀ tid pid, s.1.entryOpt tid pid =
    (s.2 pid).bind fun coords =>
      if newSegs coords tid = [] then none else some (newSegs coords tid))

theorem TInv_empty : TInv (Tiling.empty, fun _ => none) := ⟨fun _ => rfl, fun _ _ => rfl⟩

theorem TInv_step (s s' : TState) (hs : TStep s s') (hi : TInv s) : TInv s' := by
  cases hs with
  | insert t g pid coords h =>
      obtain ⟨h1, h2⟩ := hi
      dsimp only at h1 h2
      constructor <;> dsimp only
      · intro pid'
        rw [tile_ids_insert_path]
        by_cases hp : pid' = pid
        · subst hp
          rw [if_pos rfl, Function.update_same]
          rfl
        · rw [if_neg hp, Function.update_noteq hp, h1]
      · intro tid pid'
        by_cases hp : pid' = pid
        · subst hp
          have hg : g pid' = none := by
            have h1p := h1 pid'
            rw [h] at h1p
            cases hgp : g pid' with
            | none => rfl
            | some c => rw [hgp] at h1p; cases h1p
          have hold : t.entryOpt tid pid' = none := by
            rw [h2, hg]
            rfl
          rw [Function.update_same]
          by_cases hn : newSegs coords tid = []
          · rw [entryOpt_insert_path_self_nil _ _ _ _ hn, hold, Option.some_bind, if_pos hn]
          · rw [entryOpt_insert_path_self_cons _ _ _ _ hn, hold, Option.some_bind, if_neg hn]
            simp
        · rw [entryOpt_insert_path_other _ _ _ _ hp, Function.update_noteq hp, h2]
  | remove t g pid tids h =>
      obtain ⟨h1, h2⟩ := hi
      dsimp only at h1 h2
      have hcoords : ∃ coords, g pid = some coords ∧ touchedTiles coords = tids := by
        have h1p := h1 pid
        rw [h] at h1p
        cases hgp : g pid with
        | none => rw [hgp] at h1p; cases h1p
        | some c =>
            rw [hgp] at h1p
            have : tids = touchedTiles c := by simpa using h1p
            exact ⟨c, rfl, this.symm⟩
      obtain ⟨coords, hgp, htt⟩ := hcoords
      constructor <;> dsimp only
      · intro pid'
        rw [tile_ids_remove_path t pid tids h]
        by_cases hp : pid' = pid
        · subst hp
          rw [if_pos rfl, Function.update_same]
          rfl
        · rw [if_neg hp, Function.update_noteq hp, h1]
      · intro tid pid'
        by_cases hp : pid' = pid
        · subst hp
          rw [entryOpt_remove_path_self t pid' tids h, Function.update_same]
          by_cases htid : tid ∈ tids
          · rw [if_pos htid]
            rfl
          · rw [if_neg htid, h2, hgp, Option.some_bind]
            have hns : newSegs coords tid = [] := by
              by_contra hc
              exact htid (htt ▸ (newSegs_ne_nil_iff coords tid).mp hc)
            rw [if_pos hns]
            rfl
        · rw [entryOpt_remove_path_other t pid pid' hp, Function.update_noteq hp, h2]
  | clear t g => exact ⟨fun _ => rfl, fun _ _ => rfl⟩

theorem TInv_reachable (s : TState) (hs : TReachable s) : TInv s := by
  induction hs with
  | refl => exact TInv_empty
  | tail _ hstep ih => exact TInv_step _ _ hstep ih

/-- **C8 counterexample**: the stored segment list is NOT "the segments whose
bounding box intersects the tile rectangle".  The segment (0,0)–(10,0) has
bounding box [0,10]×[0,0], which intersects tile (-1,0)'s closed square
[-128,0]×[0,128] (they share the point (0,0)); yet after inserting the path
the index holds no entry at tile (-1,0): the enumeration
`min.div_euclid(L) ..= max.div_euclid(L)` reads each tile as the half-open
cell [tx·L, (tx+1)·L), so a bounding box meeting only the closed square's
upper edge is not assigned to it. -/
theorem tiling_invariant_counterexample :
    rectIntersectsRect (Line.bounding_rect ⟨⟨0, 0⟩, ⟨10, 0⟩⟩) (tile_rect ⟨-1, 0⟩) = true ∧
    ((linesOf [⟨0, 0⟩, ⟨10, 0⟩]).filter
      (fun l => rectIntersectsRect l.bounding_rect (tile_rect ⟨-1, 0⟩))) ≠ [] ∧
    (Tiling.empty.insert_path 0 [⟨0, 0⟩, ⟨10, 0⟩]).entryOpt ⟨-1, 0⟩ 0 = none := by
  have hnot : (⟨-1, 0⟩ : TileId) ∉ lineBoundingTileIds ⟨⟨0, 0⟩, ⟨10, 0⟩⟩ := by
    rw [lineBoundingTileIds, mem_boundingTileIds]
    rintro ⟨hc, -⟩
    revert hc
    decide
  have hns : newSegs [⟨0, 0⟩, ⟨10, 0⟩] ⟨-1, 0⟩ = [] := by
    rw [newSegs]
    simp only [linesOf]
    rw [List.filter_cons_of_neg (by simpa using hnot), List.filter_nil]
  refine ⟨by decide, by decide, ?_⟩
  rw [entryOpt_insert_path_self_nil Tiling.empty 0 _ _ hns]
  rfl

/-- **C8** (amended): in every index state reachable by the API, a path is a
key of a tile's map iff the tile is in the path's reverse-lookup list, and the
stored segment list is exactly the path's segments whose candidate-tile set
contains the tile — the segments whose bounding-box grid range covers the tile
AND which themselves intersect the tile square (`newSegs`) — rather than the
segments whose bounding box intersects the tile rectangle. -/
theorem tiling_bidirectional_invariant (t : Tiling) (g : PathId → Option (List Coord))
    (hr : TReachable (t, g)) (tid : TileId) (pid : PathId) :
    ((∃ ls, t.entryOpt tid pid = some ls) ↔
      (∃ tids, t.tile_ids pid = some tids ∧ tid ∈ tids)) ∧
    (∀ coords, g pid = some coords →
      t.entryOpt tid pid =
        if newSegs coords tid = [] then none else some (newSegs coords tid)) := by
  obtain ⟨h1, h2⟩ := TInv_reachable _ hr
  dsimp only at h1 h2
  constructor
  · rw [h2, h1]
    cases hg : g pid with
    | none =>
        simp
    | some coords =>
        rw [Option.some_bind, Option.map_some']
        constructor
        · rintro ⟨ls, hls⟩
          by_cases hn : newSegs coords tid = []
          · rw [if_pos hn] at hls
            cases hls
          · exact ⟨touchedTiles coords, rfl, (newSegs_ne_nil_iff coords tid).mp hn⟩
        · rintro ⟨tids, htids, hmem⟩
          have htt : tid ∈ touchedTiles coords := by
            cases htids
            exact hmem
          rw [if_neg ((newSegs_ne_nil_iff coords tid).mpr htt)]
          exact ⟨_, rfl⟩
  · intro coords hg
    rw [h2, hg, Option.some_bind]

theorem tiling_bidirectional_invariant_witness :
    ((∃ ls, (Tiling.empty.insert_path 0 [⟨0, 0⟩, ⟨10, 0⟩]).entryOpt ⟨0, 0⟩ 0 = some ls) ↔
      (∃ tids, (Tiling.empty.insert_path 0 [⟨0, 0⟩, ⟨10, 0⟩]).tile_ids 0 = some tids ∧
        (⟨0, 0⟩ : TileId) ∈ tids)) ∧
    (∀ coords,
      Function.update (fun _ => (none : Option (List Coord))) 0
          (some [⟨0, 0⟩, ⟨10, 0⟩]) 0 = some coords →
      (Tiling.empty.insert_path 0 [⟨0, 0⟩, ⟨10, 0⟩]).entryOpt ⟨0, 0⟩ 0 =
        if newSegs coords ⟨0, 0⟩ = [] then none else some (newSegs coords ⟨0, 0⟩)) :=
  tiling_bidirectional_invariant (Tiling.empty.insert_path 0 [⟨0, 0⟩, ⟨10, 0⟩])
    (Function.update (fun _ => none) 0 (some [⟨0, 0⟩, ⟨10, 0⟩]))
    (Relation.ReflTransGen.single
      (TStep.insert Tiling.empty (fun _ => none) 0 [⟨0, 0⟩, ⟨10, 0⟩] rfl)) ⟨0, 0⟩ 0

/-! ### The Model (model.rs): path store, selection, hidden set, history -/

/-- `common::Path`: a color tag and the coordinate list.  The color value is
never inspected by the model's logic; it is carried as an opaque tag. -/
structure PPath where
  color : Nat
  coords : List Coord
deriving DecidableEq, Repr

/-- `model::Command` (model.rs lines 21–33). -/
inductive Command where
  | insert (path_ids : List PathId)
  | shift (path_ids : List PathId) (delta : Coord)
  | remove (paths : List (PathId × PPath))
deriving DecidableEq, Repr

/-- `model::Model` (lines 34–49), restricted to the document state the claims
are about: path collection, tile index, selected/hidden id sets, and the edit
history.  Offset, tool, pen color, storage and view are rendering/persistence
glue.  The hash map and hash sets are modelled extensionally. -/
structure Model where
  paths : PathId → Option PPath
  tiling : Tiling
  selected : PathId → Bool
  hidden : PathId → Bool
  history : History Command

/-- The empty document (`Model::load` with empty storage). -/
def Model.initial : Model :=
  ⟨fun _ => none, Tiling.empty, fun _ => false, fun _ => false, History.default Command⟩

def Coord.add (c d : Coord) : Coord := ⟨c.x + d.x, c.y + d.y⟩

def Coord.neg (d : Coord) : Coord := ⟨-d.x, -d.y⟩

/-- `translate_inplace(delta.x, delta.y)` on a path's coordinates. -/
def PPath.translate (p : PPath) (d : Coord) : PPath :=
  { p with coords := p.coords.map (fun c => Coord.add c d) }

/-- `Model::insert_paths` (lines 161–177).  Per entry: index the coordinates,
then insert into the path map; the source asserts the id was absent (a
duplicate aborts the program — modelled as skipping the entry, excluded by the
theorems' preconditions).  Finally push an `Insert` command. -/
def Model.insert_paths (m : Model) (ps : List (PathId × PPath)) : Model :=
  let m2 := ps.foldl
    (fun acc e =>
      match acc.paths e.1 with
      | some _ => acc
      | none =>
          { acc with
              paths := Function.update acc.paths e.1 (some e.2),
              tiling := acc.tiling.insert_path e.1 e.2.coords })
    m
  { m2 with history := m2.history.push (Command.insert (ps.map Prod.fst)) }

/-- `Model::shift_paths` (lines 178–196).  Per id: translate the stored path,
re-index it (remove then insert), keeping selection/hidden untouched; the
`expect("path not found")` aborts on a missing id (modelled as skipping).
Finally push a `Shift` command. -/
def Model.shift_paths (m : Model) (ids : List PathId) (delta : Coord) : Model :=
  let m2 := ids.foldl
    (fun acc id =>
      match acc.paths id with
      | none => acc
      | some p =>
          { acc with
              paths := Function.update acc.paths id (some (p.translate delta)),
              tiling := (acc.tiling.remove_path id).insert_path id
                (p.translate delta).coords })
    m
  { m2 with history := m2.history.push (Command.shift ids delta) }

/-- The fold of `Model::remove_paths` (lines 198–209), also collecting the
removed `(id, path)` snapshots for the command.  Per id: unindex, drop from
the selected and hidden sets, remove from the path map (`expect` on a missing
id — modelled as skipping). -/
def Model.remove_paths_core (m : Model) (ids : List PathId) :
    Model × List (PathId × PPath) :=
  ids.foldl
    (fun acc id =>
      match acc.1.paths id with
      | none => acc
      | some p =>
          ({ acc.1 with
              paths := Function.update acc.1.paths id none,
              tiling := acc.1.tiling.remove_path id,
              selected := Function.update acc.1.selected id false,
              hidden := Function.update acc.1.hidden id false },
            acc.2 ++ [(id, p)]))
    (m, [])

/-- `Model::remove_paths`: the fold above, then push a `Remove` command with
the captured snapshots. -/
def Model.remove_paths (m : Model) (ids : List PathId) : Model :=
  let r := Model.remove_paths_core m ids
  { r.1 with history := r.1.history.push (Command.remove r.2) }

/-- `Model::remove_selected_paths` (lines 210–218): drain the selected set and
remove those paths; the drain order of the hash set is unspecified, so the
enumeration list is a parameter (constrained in the step relation). -/
def Model.remove_selected_paths (m : Model) (L : List PathId) : Model :=
  if L = [] then m else m.remove_paths L

/-- `Model::clear_paths` (lines 220–229): no-op on an empty document;
otherwise drain the path map (enumeration parameter), clear the index and
both id sets, and push a `Remove` command with all snapshots. -/
def Model.clear_paths (m : Model) (L : List (PathId × PPath)) : Model :=
  if L = [] then m
  else
    { paths := fun _ => none,
      tiling := m.tiling.clear,
      selected := fun _ => false,
      hidden := fun _ => false,
      history := m.history.push (Command.remove L) }

/-- Modelled from the spec: the geometry library's whole-box containment test
used by selection ("a candidate is selected only if its whole bounding box is
contained in the drag rectangle"): inclusive containment of the second box in
the first. -/
def rectContainsRect (r1 r2 : Rect) : Bool :=
  decide (r1.rmin.x ≤ r2.rmin.x) && decide (r2.rmax.x ≤ r1.rmax.x) &&
  decide (r1.rmin.y ≤ r2.rmin.y) && decide (r2.rmax.y ≤ r1.rmax.y)

/-- `LineString::bounding_rect` of the geo crate on a coordinate list:
`None` when empty, otherwise the min/max box of all points. -/
def coordsBoundingRect : List Coord → Option Rect
  | [] => none
  | c :: rest =>
      some (rest.foldl
        (fun r d =>
          ⟨⟨min r.rmin.x d.x, min r.rmin.y d.y⟩, ⟨max r.rmax.x d.x, max r.rmax.y d.y⟩⟩)
        ⟨c, c⟩)

/-- The per-candidate filter of `Model::select_paths_with` (lines 237–253):
the candidate's path is looked up (`expect("path not found")` — a missing
path aborts; modelled as rejecting the candidate, dead in reachable states by
the C10 invariant), and its bounding box must be contained in `whole_rect`
(`expect("empty path")` likewise modelled as rejection). -/
def selectHit (m : Model) (whole_rect : Rect) (id : PathId) : Bool :=
  match m.paths id with
  | none => false
  | some p =>
      match coordsBoundingRect p.coords with
      | none => false
      | some bbox => rectContainsRect whole_rect bbox

/-- `Model::select_paths_with`: extend the selected set with the ids of the
query output that pass the containment filter. -/
def Model.select_paths_with (m : Model) (whole_rect rect : Rect) : Model :=
  { m with
      selected := fun q =>
        m.selected q ||
          (m.tiling.boundingTileItemsRect rect).any
            (fun e => decide (e.1 = q) && selectHit m whole_rect e.1) }

/-- `Model::unselect_paths_with` (lines 256–264): drop from the selected set
every queried id one of whose stored segments intersects the rectangle. -/
def Model.unselect_paths_with (m : Model) (rect : Rect) : Model :=
  { m with
      selected := fun q =>
        m.selected q &&
          !((m.tiling.boundingTileItemsRect rect).any
            (fun e => decide (e.1 = q) && e.2.any (fun l => lineIntersectsRect l rect))) }

/-- `Model::unselect_all_paths` (lines 266–271). -/
def Model.unselect_all_paths (m : Model) : Model :=
  { m with selected := fun _ => false }

/-- `Model::hide_path` (lines 273–276): asserts the path exists (modelled as a
no-op otherwise), then inserts into the hidden set. -/
def Model.hide_path (m : Model) (id : PathId) : Model :=
  match m.paths id with
  | none => m
  | some _ => { m with hidden := Function.update m.hidden id true }

/-- `Model::unhide_path` (lines 278–281). -/
def Model.unhide_path (m : Model) (id : PathId) : Model :=
  match m.paths id with
  | none => m
  | some _ => { m with hidden := Function.update m.hidden id false }

/-- `Model::rollback` (lines 284–296): apply the inverse of a command —
`Insert` inverts to removal of the same ids, `Shift` to a shift by the
negated delta, `Remove` to re-insertion of the captured snapshots. -/
def Model.rollback (m : Model) (c : Command) : Model :=
  match c with
  | .insert ids => m.remove_paths ids
  | .shift ids delta => m.shift_paths ids (Coord.neg delta)
  | .remove ps => m.insert_paths ps

/-- `Model::undo` (lines 298–302). -/
def Model.undo (m : Model) : Model :=
  match m.history.start_undo with
  | (none, h2) => { m with history := h2 }
  | (some c, h2) => Model.rollback { m with history := h2 } c

/-- `Model::redo` (lines 304–308). -/
def Model.redo (m : Model) : Model :=
  match m.history.start_redo with
  | (none, h2) => { m with history := h2 }
  | (some c, h2) => Model.rollback { m with history := h2 } c

/-- One step of the public mutation API.  The enumeration lists drained from
hash containers are constrained to enumerate exactly the respective sets. -/
inductive MStep : Model → Model → Prop
  | insert (m : Model) (ps : List (PathId × PPath)) : MStep m (m.insert_paths ps)
  | shift (m : Model) (ids : List PathId) (delta : Coord) :
      MStep m (m.shift_paths ids delta)
  | remove (m : Model) (ids : List PathId) : MStep m (m.remove_paths ids)
  | removeSelected (m : Model) (L : List PathId)
      (hL : ∀ id, m.selected id = true ↔ id ∈ L) :
      MStep m (m.remove_selected_paths L)
  | clear (m : Model) (L : List (PathId × PPath))
      (hL : ∀ e, e ∈ L → m.paths e.1 = some e.2)
      (hall : ∀ id, (m.paths id).isSome ↔ id ∈ L.map Prod.fst) :
      MStep m (m.clear_paths L)
  | select (m : Model) (wr r : Rect) : MStep m (m.select_paths_with wr r)
  | unselect (m : Model) (r : Rect) : MStep m (m.unselect_paths_with r)
  | unselectAll (m : Model) : MStep m m.unselect_all_paths
  | hide (m : Model) (id : PathId) : MStep m (m.hide_path id)
  | unhide (m : Model) (id : PathId) : MStep m (m.unhide_path id)
  | undo (m : Model) : MStep m m.undo
  | redo (m : Model) : MStep m m.redo

/-- Document states reachable from the empty document. -/
def MReachable (m : Model) : Prop :=
  Relation.ReflTransGen MStep Model.initial m

/-! ### C10 — the selected/hidden subset invariant -/

/-- The subset invariant: selected and hidden ids always name present paths. -/
def ModelInv (m : Model) : Prop :=
  (∀ id, m.selected id = true → (m.paths id).isSome) ∧
  (∀ id, m.hidden id = true → (m.paths id).isSome)

theorem foldl_preserves {α β : Type} (P : α → Prop) (f : α → β → α)
    (hf : ∀ a b, P a → P (f a b)) (l : List β) (a : α) (ha : P a) :
    P (l.foldl f a) := by
  induction l generalizing a with
  | nil => exact ha
  | cons b rest ih => exact ih _ (hf a b ha)

theorem ModelInv_history (m : Model) (h : History Command) (hi : ModelInv m) :
    ModelInv { m with history := h } := hi

theorem ModelInv_insert (m : Model) (ps : List (PathId × PPath)) (hi : ModelInv m) :
    ModelInv (m.insert_paths ps) := by
  refine ModelInv_history _ _ (foldl_preserves ModelInv _ ?_ ps m hi)
  intro a b ha
  rcases hp : a.paths b.1 with _ | p <;> simp only [hp]
  · refine ⟨fun id hsel => ?_, fun id hhid => ?_⟩
    · by_cases hid : id = b.1
      · subst hid
        simp [Function.update_same]
      · simp only [Function.update_noteq hid]
        exact ha.1 id hsel
    · by_cases hid : id = b.1
      · subst hid
        simp [Function.update_same]
      · simp only [Function.update_noteq hid]
        exact ha.2 id hhid
  · exact ha

theorem ModelInv_shift (m : Model) (ids : List PathId) (delta : Coord)
    (hi : ModelInv m) : ModelInv (m.shift_paths ids delta) := by
  refine ModelInv_history _ _ (foldl_preserves ModelInv _ ?_ ids m hi)
  intro a b ha
  rcases hp : a.paths b with _ | p <;> simp only [hp]
  · exact ha
  · refine ⟨fun id hsel => ?_, fun id hhid => ?_⟩
    · by_cases hid : id = b
      · subst hid
        simp [Function.update_same]
      · simp only [Function.update_noteq hid]
        exact ha.1 id hsel
    · by_cases hid : id = b
      · subst hid
        simp [Function.update_same]
      · simp only [Function.update_noteq hid]
        exact ha.2 id hhid

theorem ModelInv_remove_step (a : Model × List (PathId × PPath)) (b : PathId)
    (ha : ModelInv a.1) :
    ModelInv
      (match a.1.paths b with
        | none => a
        | some p =>
            ({ a.1 with
                paths := Function.update a.1.paths b none,
                tiling := a.1.tiling.remove_path b,
                selected := Function.update a.1.selected b false,
                hidden := Function.update a.1.hidden b false },
              a.2 ++ [(b, p)])).1 := by
  rcases hp : a.1.paths b with _ | p <;> simp only [hp]
  · exact ha
  · refine ⟨fun id hsel => ?_, fun id hhid => ?_⟩
    · by_cases hid : id = b
      · subst hid
        simp only [Function.update_same] at hsel
        cases hsel
      · simp only [Function.update_noteq hid] at hsel
        simp only [Function.update_noteq hid]
        exact ha.1 id hsel
    · by_cases hid : id = b
      · subst hid
        simp only [Function.update_same] at hhid
        cases hhid
      · simp only [Function.update_noteq hid] at hhid
        simp only [Function.update_noteq hid]
        exact ha.2 id hhid

theorem ModelInv_remove (m : Model) (ids : List PathId) (hi : ModelInv m) :
    ModelInv (m.remove_paths ids) :=
  ModelInv_history _ _
    (foldl_preserves (fun acc => ModelInv acc.1) _ ModelInv_remove_step ids (m, []) hi)

theorem ModelInv_removeSelected (m : Model) (L : List PathId) (hi : ModelInv m) :
    ModelInv (m.remove_selected_paths L) := by
  unfold Model.remove_selected_paths
  split
  · exact hi
  · exact ModelInv_remove m L hi

theorem ModelInv_clear (m : Model) (L : List (PathId × PPath)) (hi : ModelInv m) :
    ModelInv (m.clear_paths L) := by
  unfold Model.clear_paths
  split
  · exact hi
  · exact ⟨fun id h => (nomatch h), fun id h => nomatch h⟩

theorem selectHit_isSome (m : Model) (wr : Rect) (id : PathId)
    (h : selectHit m wr id = true) : (m.paths id).isSome := by
  unfold selectHit at h
  cases hp : m.paths id with
  | none =>
      simp only [hp] at h
      cases h
  | some p => rfl

theorem ModelInv_select (m : Model) (wr r : Rect) (hi : ModelInv m) :
    ModelInv (m.select_paths_with wr r) := by
  refine ⟨fun id hsel => ?_, hi.2⟩
  simp only [Model.select_paths_with, Bool.or_eq_true, List.any_eq_true,
    Bool.and_eq_true, decide_eq_true_eq] at hsel
  rcases hsel with hold | ⟨e, _, he, hhit⟩
  · exact hi.1 id hold
  · exact he ▸ selectHit_isSome m wr e.1 hhit

theorem ModelInv_unselect (m : Model) (r : Rect) (hi : ModelInv m) :
    ModelInv (m.unselect_paths_with r) := by
  refine ⟨fun id hsel => ?_, hi.2⟩
  simp only [Model.unselect_paths_with, Bool.and_eq_true] at hsel
  exact hi.1 id hsel.1

theorem ModelInv_unselectAll (m : Model) (hi : ModelInv m) :
    ModelInv m.unselect_all_paths :=
  ⟨fun id h => (nomatch h), hi.2⟩

theorem ModelInv_hide (m : Model) (id : PathId) (hi : ModelInv m) :
    ModelInv (m.hide_path id) := by
  cases hp : m.paths id with
  | none =>
      unfold Model.hide_path
      rw [hp]
      exact hi
  | some p =>
      unfold Model.hide_path
      rw [hp]
      refine ⟨hi.1, fun q hq => ?_⟩
      have hq2 : Function.update m.hidden id true q = true := hq
      show (m.paths q).isSome = true
      by_cases hqi : q = id
      · subst hqi
        rw [hp]
        rfl
      · rw [Function.update_noteq hqi] at hq2
        exact hi.2 q hq2

theorem ModelInv_unhide (m : Model) (id : PathId) (hi : ModelInv m) :
    ModelInv (m.unhide_path id) := by
  cases hp : m.paths id with
  | none =>
      unfold Model.unhide_path
      rw [hp]
      exact hi
  | some p =>
      unfold Model.unhide_path
      rw [hp]
      refine ⟨hi.1, fun q hq => ?_⟩
      have hq2 : Function.update m.hidden id false q = true := hq
      by_cases hqi : q = id
      · subst hqi
        rw [Function.update_same] at hq2
        cases hq2
      · rw [Function.update_noteq hqi] at hq2
        exact hi.2 q hq2

theorem ModelInv_rollback (m : Model) (c : Command) (hi : ModelInv m) :
    ModelInv (m.rollback c) := by
  cases c with
  | insert ids => exact ModelInv_remove m ids hi
  | shift ids delta => exact ModelInv_shift m ids (Coord.neg delta) hi
  | remove ps => exact ModelInv_insert m ps hi

theorem ModelInv_undo (m : Model) (hi : ModelInv m) : ModelInv m.undo := by
  unfold Model.undo
  rcases h : m.history.start_undo with ⟨c, h2⟩
  cases c with
  | none => exact ModelInv_history _ _ hi
  | some c => exact ModelInv_rollback _ c (ModelInv_history _ _ hi)

theorem ModelInv_redo (m : Model) (hi : ModelInv m) : ModelInv m.redo := by
  unfold Model.redo
  rcases h : m.history.start_redo with ⟨c, h2⟩
  cases c with
  | none => exact ModelInv_history _ _ hi
  | some c => exact ModelInv_rollback _ c (ModelInv_history _ _ hi)

theorem ModelInv_step (m m2 : Model) (hs : MStep m m2) (hi : ModelInv m) :
    ModelInv m2 := by
  cases hs with
  | insert ps => exact ModelInv_insert m ps hi
  | shift ids delta => exact ModelInv_shift m ids delta hi
  | remove ids => exact ModelInv_remove m ids hi
  | removeSelected L hL => exact ModelInv_removeSelected m L hi
  | clear L hL hall => exact ModelInv_clear m L hi
  | select wr r => exact ModelInv_select m wr r hi
  | unselect r => exact ModelInv_unselect m r hi
  | unselectAll => exact ModelInv_unselectAll m hi
  | hide id => exact ModelInv_hide m id hi
  | unhide id => exact ModelInv_unhide m id hi
  | undo => exact ModelInv_undo m hi
  | redo => exact ModelInv_redo m hi

theorem ModelInv_reachable (m : Model) (hr : MReachable m) : ModelInv m := by
  induction hr with
  | refl => exact ⟨fun _ h => (nomatch h), fun _ h => nomatch h⟩
  | tail _ hstep ih => exact ModelInv_step _ _ hstep ih

theorem remove_core_selected_mono (ids : List PathId)
    (acc : Model × List (PathId × PPath)) (id : PathId)
    (hsel : acc.1.selected id = false) (hhid : acc.1.hidden id = false) :
    (ids.foldl
      (fun acc id =>
        match acc.1.paths id with
        | none => acc
        | some p =>
            ({ acc.1 with
                paths := Function.update acc.1.paths id none,
                tiling := acc.1.tiling.remove_path id,
                selected := Function.update acc.1.selected id false,
                hidden := Function.update acc.1.hidden id false },
              acc.2 ++ [(id, p)])) acc).1.selected id = false ∧
    (ids.foldl
      (fun acc id =>
        match acc.1.paths id with
        | none => acc
        | some p =>
            ({ acc.1 with
                paths := Function.update acc.1.paths id none,
                tiling := acc.1.tiling.remove_path id,
                selected := Function.update acc.1.selected id false,
                hidden := Function.update acc.1.hidden id false },
              acc.2 ++ [(id, p)])) acc).1.hidden id = false := by
  induction ids generalizing acc with
  | nil => exact ⟨hsel, hhid⟩
  | cons b rest ih =>
      simp only [List.foldl_cons]
      refine ih _ ?_ ?_ <;> rcases hp : acc.1.paths b with _ | p <;> simp only [hp]
      · exact hsel
      · by_cases hid : id = b
        · subst hid
          simp only [Function.update_same]
        · simp only [Function.update_noteq hid]
          exact hsel
      · exact hhid
      · by_cases hid : id = b
        · subst hid
          simp only [Function.update_same]
        · simp only [Function.update_noteq hid]
          exact hhid

theorem remove_fold_clears (ids : List PathId) (acc : Model × List (PathId × PPath))
    (id : PathId) (hmem : id ∈ ids) (hi : ModelInv acc.1) :
    (ids.foldl
      (fun acc id =>
        match acc.1.paths id with
        | none => acc
        | some p =>
            ({ acc.1 with
                paths := Function.update acc.1.paths id none,
                tiling := acc.1.tiling.remove_path id,
                selected := Function.update acc.1.selected id false,
                hidden := Function.update acc.1.hidden id false },
              acc.2 ++ [(id, p)])) acc).1.selected id = false ∧
    (ids.foldl
      (fun acc id =>
        match acc.1.paths id with
        | none => acc
        | some p =>
            ({ acc.1 with
                paths := Function.update acc.1.paths id none,
                tiling := acc.1.tiling.remove_path id,
                selected := Function.update acc.1.selected id false,
                hidden := Function.update acc.1.hidden id false },
              acc.2 ++ [(id, p)])) acc).1.hidden id = false := by
  induction ids generalizing acc with
  | nil => cases hmem
  | cons b rest ih =>
      simp only [List.foldl_cons]
      rcases List.mem_cons.mp hmem with rfl | hmem2
      · refine remove_core_selected_mono rest _ id ?_ ?_ <;>
          rcases hp : acc.1.paths id with _ | p <;> simp only [hp]
        · cases hsb : acc.1.selected id with
          | false => rfl
          | true =>
              have := hi.1 id hsb
              rw [hp] at this
              cases this
        · simp only [Function.update_same]
        · cases hsb : acc.1.hidden id with
          | false => rfl
          | true =>
              have := hi.2 id hsb
              rw [hp] at this
              cases this
        · simp only [Function.update_same]
      · exact ih _ hmem2 (ModelInv_remove_step acc b hi)

theorem remove_paths_clears (m : Model) (ids : List PathId) (id : PathId)
    (hmem : id ∈ ids) (hi : ModelInv m) :
    (m.remove_paths ids).selected id = false ∧ (m.remove_paths ids).hidden id = false :=
  remove_fold_clears ids (m, []) id hmem hi

/-- **C10** (selection/hidden subset invariant): in every document state
reachable through the public mutation API, every selected id and every hidden
id names a present path; and removing paths removes the removed ids from both
sets. -/
theorem selection_hidden_subset (m : Model) (hr : MReachable m) :
    (∀ id, m.selected id = true → (m.paths id).isSome) ∧
    (∀ id, m.hidden id = true → (m.paths id).isSome) ∧
    (∀ ids id, id ∈ ids →
      (m.remove_paths ids).selected id = false ∧
      (m.remove_paths ids).hidden id = false) := by
  have hi := ModelInv_reachable m hr
  exact ⟨hi.1, hi.2, fun ids id hmem => remove_paths_clears m ids id hmem hi⟩

theorem selection_hidden_subset_witness :
    (((Model.initial.insert_paths [(0, ⟨0, [⟨0, 0⟩, ⟨10, 0⟩]⟩)]).hide_path 0).paths 0).isSome :=
  (selection_hidden_subset
      ((Model.initial.insert_paths [(0, ⟨0, [⟨0, 0⟩, ⟨10, 0⟩]⟩)]).hide_path 0)
      (Relation.ReflTransGen.tail
        (Relation.ReflTransGen.single
          (MStep.insert Model.initial [(0, ⟨0, [⟨0, 0⟩, ⟨10, 0⟩]⟩)]))
        (MStep.hide _ 0))).2.1 0 rfl

/-! ### C3 — command application and inversion -/

/-- The index is in its canonical state for a path: the reverse-lookup entry
is the touched-tile set of `coords` and every (tile, path) entry is the
candidate-filtered segment list.  This is how `insert_path` leaves the index
(C8), restated here as the precondition for re-indexing. -/
def canonicalFor (t : Tiling) (id : PathId) (coords : List Coord) : Prop :=
  t.tile_ids id = some (touchedTiles coords) ∧
  ∀ tid, t.entryOpt tid id =
    if newSegs coords tid = [] then none else some (newSegs coords tid)

theorem remove_path_clears (t : Tiling) (id : PathId) (coords : List Coord)
    (hcan : canonicalFor t id coords) :
    (t.remove_path id).tile_ids id = none ∧
    (∀ tid, (t.remove_path id).entryOpt tid id = none) ∧
    (∀ q, q ≠ id → (t.remove_path id).tile_ids q = t.tile_ids q) ∧
    (∀ tid q, q ≠ id → (t.remove_path id).entryOpt tid q = t.entryOpt tid q) := by
  obtain ⟨h1, h2⟩ := hcan
  refine ⟨?_, ?_, ?_, ?_⟩
  · rw [tile_ids_remove_path t id _ h1, if_pos rfl]
  · intro tid
    rw [entryOpt_remove_path_self t id _ h1]
    by_cases htid : tid ∈ touchedTiles coords
    · rw [if_pos htid]
    · have hns : newSegs coords tid = [] := by
        by_contra hc
        exact htid ((newSegs_ne_nil_iff coords tid).mp hc)
      rw [if_neg htid, h2, if_pos hns]
  · intro q hq
    rw [tile_ids_remove_path t id _ h1, if_neg hq]
  · intro tid q hq
    exact entryOpt_remove_path_other t id q hq tid

theorem insert_path_establishes (t : Tiling) (id : PathId) (coords : List Coord)
    (hent : ∀ tid, t.entryOpt tid id = none) :
    canonicalFor (t.insert_path id coords) id coords ∧
    (∀ q, q ≠ id → (t.insert_path id coords).tile_ids q = t.tile_ids q) ∧
    (∀ tid q, q ≠ id → (t.insert_path id coords).entryOpt tid q = t.entryOpt tid q) := by
  refine ⟨⟨?_, ?_⟩, ?_, ?_⟩
  · rw [tile_ids_insert_path, if_pos rfl]
  · intro tid
    by_cases hn : newSegs coords tid = []
    · rw [if_pos hn, entryOpt_insert_path_self_nil t id coords tid hn, hent]
    · rw [if_neg hn, entryOpt_insert_path_self_cons t id coords tid hn, hent]
      simp
  · intro q hq
    rw [tile_ids_insert_path, if_neg hq]
  · intro tid q hq
    exact entryOpt_insert_path_other t id q coords hq tid

/-- Re-indexing a canonically indexed path (`remove_path` then `insert_path`,
the body of `shift_paths`) leaves the index canonical for the new coordinates
and untouched for every other path. -/
theorem tiling_reindex (t : Tiling) (id : PathId) (coords coords2 : List Coord)
    (hcan : canonicalFor t id coords) :
    canonicalFor ((t.remove_path id).insert_path id coords2) id coords2 ∧
    (∀ q, q ≠ id →
      ((t.remove_path id).insert_path id coords2).tile_ids q = t.tile_ids q) ∧
    (∀ tid q, q ≠ id →
      ((t.remove_path id).insert_path id coords2).entryOpt tid q = t.entryOpt tid q) := by
  obtain ⟨hrt, hre, hrt2, hre2⟩ := remove_path_clears t id coords hcan
  obtain ⟨hc, hi1, hi2⟩ := insert_path_establishes (t.remove_path id) id coords2 hre
  exact ⟨hc, fun q hq => (hi1 q hq).trans (hrt2 q hq),
    fun tid q hq => (hi2 tid q hq).trans (hre2 tid q hq)⟩

theorem PPath.translate_cancel (p : PPath) (d : Coord) :
    (p.translate d).translate (Coord.neg d) = p := by
  cases p with
  | mk color coords =>
      simp only [PPath.translate, List.map_map, PPath.mk.injEq, true_and]
      have hfun : ((fun c => Coord.add c (Coord.neg d)) ∘ fun c => Coord.add c d) = id := by
        funext c
        cases c
        simp [Coord.add, Coord.neg]
      rw [hfun, List.map_id]

theorem insert_single (m : Model) (id : PathId) (p : PPath) (h : m.paths id = none) :
    (m.insert_paths [(id, p)]).paths = Function.update m.paths id (some p) ∧
    (m.insert_paths [(id, p)]).tiling = m.tiling.insert_path id p.coords ∧
    (m.insert_paths [(id, p)]).selected = m.selected ∧
    (m.insert_paths [(id, p)]).hidden = m.hidden := by
  refine ⟨?_, ?_, ?_, ?_⟩ <;>
    simp only [Model.insert_paths, List.foldl_cons, List.foldl_nil, h]

theorem remove_single (m : Model) (id : PathId) (p : PPath) (h : m.paths id = some p) :
    (m.remove_paths [id]).paths = Function.update m.paths id none ∧
    (m.remove_paths [id]).tiling = m.tiling.remove_path id ∧
    (m.remove_paths [id]).selected = Function.update m.selected id false ∧
    (m.remove_paths [id]).hidden = Function.update m.hidden id false := by
  refine ⟨?_, ?_, ?_, ?_⟩ <;>
    simp only [Model.remove_paths, Model.remove_paths_core, List.foldl_cons,
      List.foldl_nil, h]

theorem shift_single (m : Model) (id : PathId) (p : PPath) (delta : Coord)
    (h : m.paths id = some p) :
    (m.shift_paths [id] delta).paths =
      Function.update m.paths id (some (p.translate delta)) ∧
    (m.shift_paths [id] delta).tiling =
      (m.tiling.remove_path id).insert_path id (p.translate delta).coords ∧
    (m.shift_paths [id] delta).selected = m.selected ∧
    (m.shift_paths [id] delta).hidden = m.hidden := by
  refine ⟨?_, ?_, ?_, ?_⟩ <;>
    simp only [Model.shift_paths, List.foldl_cons, List.foldl_nil, h]

theorem tile_ids_remove_path_other (t : Tiling) (pid q : PathId) (hq : q ≠ pid) :
    (t.remove_path pid).tile_ids q = t.tile_ids q := by
  unfold Tiling.remove_path
  cases h : t.tile_ids pid with
  | none => rfl
  | some tids => exact Function.update_noteq hq _ _

theorem canonicalFor_congr (t t2 : Tiling) (id : PathId) (coords : List Coord)
    (h1 : t2.tile_ids id = t.tile_ids id)
    (h2 : ∀ tid, t2.entryOpt tid id = t.entryOpt tid id)
    (hc : canonicalFor t id coords) : canonicalFor t2 id coords :=
  ⟨h1.trans hc.1, fun tid => (h2 tid).trans (hc.2 tid)⟩

theorem insert_paths_cons_some (m : Model) (e : PathId × PPath)
    (rest : List (PathId × PPath)) (p : PPath) (hp : m.paths e.1 = some p) :
    (m.insert_paths (e :: rest)).paths = (m.insert_paths rest).paths ∧
    (m.insert_paths (e :: rest)).tiling = (m.insert_paths rest).tiling ∧
    (m.insert_paths (e :: rest)).selected = (m.insert_paths rest).selected ∧
    (m.insert_paths (e :: rest)).hidden = (m.insert_paths rest).hidden := by
  refine ⟨?_, ?_, ?_, ?_⟩ <;> simp only [Model.insert_paths, List.foldl_cons, hp]

theorem insert_paths_cons_none (m : Model) (e : PathId × PPath)
    (rest : List (PathId × PPath)) (hp : m.paths e.1 = none) :
    (m.insert_paths (e :: rest)).paths =
      (({ m with
          paths := Function.update m.paths e.1 (some e.2),
          tiling := m.tiling.insert_path e.1 e.2.coords } : Model).insert_paths rest).paths ∧
    (m.insert_paths (e :: rest)).tiling =
      (({ m with
          paths := Function.update m.paths e.1 (some e.2),
          tiling := m.tiling.insert_path e.1 e.2.coords } : Model).insert_paths rest).tiling ∧
    (m.insert_paths (e :: rest)).selected =
      (({ m with
          paths := Function.update m.paths e.1 (some e.2),
          tiling := m.tiling.insert_path e.1 e.2.coords } : Model).insert_paths rest).selected ∧
    (m.insert_paths (e :: rest)).hidden =
      (({ m with
          paths := Function.update m.paths e.1 (some e.2),
          tiling := m.tiling.insert_path e.1 e.2.coords } : Model).insert_paths rest).hidden := by
  refine ⟨?_, ?_, ?_, ?_⟩ <;> simp only [Model.insert_paths, List.foldl_cons, hp]

/-- `insert_paths` does not touch the selected/hidden sets, nor any path id
outside the inserted list. -/
theorem insert_paths_untouched (ps : List (PathId × PPath)) (m : Model) :
    (m.insert_paths ps).selected = m.selected ∧
    (m.insert_paths ps).hidden = m.hidden ∧
    ∀ q, q ∉ ps.map Prod.fst →
      (m.insert_paths ps).paths q = m.paths q ∧
      (m.insert_paths ps).tiling.tile_ids q = m.tiling.tile_ids q ∧
      ∀ tid, (m.insert_paths ps).tiling.entryOpt tid q = m.tiling.entryOpt tid q := by
  induction ps generalizing m with
  | nil => exact ⟨rfl, rfl, fun q _ => ⟨rfl, rfl, fun _ => rfl⟩⟩
  | cons e rest ih =>
      cases hp : m.paths e.1 with
      | some p =>
          obtain ⟨c1, c2, c3, c4⟩ := insert_paths_cons_some m e rest p hp
          obtain ⟨i1, i2, i3⟩ := ih m
          refine ⟨c3.trans i1, c4.trans i2, fun q hq => ?_⟩
          have hq2 : q ∉ rest.map Prod.fst := fun hc => hq (List.mem_cons_of_mem _ hc)
          obtain ⟨j1, j2, j3⟩ := i3 q hq2
          rw [c1, c2]
          exact ⟨j1, j2, j3⟩
      | none =>
          obtain ⟨c1, c2, c3, c4⟩ := insert_paths_cons_none m e rest hp
          obtain ⟨i1, i2, i3⟩ := ih
            { m with
              paths := Function.update m.paths e.1 (some e.2),
              tiling := m.tiling.insert_path e.1 e.2.coords }
          refine ⟨c3.trans i1, c4.trans i2, fun q hq => ?_⟩
          simp only [List.map_cons, List.mem_cons, not_or] at hq
          obtain ⟨j1, j2, j3⟩ := i3 q hq.2
          rw [c1, c2]
          refine ⟨j1.trans ?_, j2.trans ?_, fun tid => (j3 tid).trans ?_⟩
          · exact Function.update_noteq hq.1 _ _
          · show (m.tiling.insert_path e.1 e.2.coords).tile_ids q = m.tiling.tile_ids q
            rw [tile_ids_insert_path, if_neg hq.1]
          · exact entryOpt_insert_path_other m.tiling e.1 q e.2.coords hq.1 tid

/-- After `insert_paths` over fresh, pairwise-distinct ids, every inserted
entry is stored and canonically indexed. -/
theorem insert_paths_present (ps : List (PathId × PPath)) (m : Model)
    (hnd : (ps.map Prod.fst).Nodup)
    (hfresh : ∀ e ∈ ps, m.paths e.1 = none)
    (hent : ∀ e ∈ ps, ∀ tid, m.tiling.entryOpt tid e.1 = none) :
    ∀ e ∈ ps, (m.insert_paths ps).paths e.1 = some e.2 ∧
      canonicalFor (m.insert_paths ps).tiling e.1 e.2.coords := by
  induction ps generalizing m with
  | nil => exact fun e he => absurd he (List.not_mem_nil e)
  | cons e0 rest ih =>
      simp only [List.map_cons, List.nodup_cons] at hnd
      have hp := hfresh e0 (List.mem_cons_self e0 rest)
      obtain ⟨c1, c2, c3, c4⟩ := insert_paths_cons_none m e0 rest hp
      obtain ⟨hcan0, hother1, hother2⟩ :=
        insert_path_establishes m.tiling e0.1 e0.2.coords
          (hent e0 (List.mem_cons_self e0 rest))
      intro e he
      rcases List.mem_cons.mp he with rfl | hrest
      · obtain ⟨_, _, i3⟩ := insert_paths_untouched rest
          { m with
            paths := Function.update m.paths e.1 (some e.2),
            tiling := m.tiling.insert_path e.1 e.2.coords }
        obtain ⟨j1, j2, j3⟩ := i3 e.1 hnd.1
        constructor
        · rw [c1, j1]
          exact Function.update_same _ _ _
        · rw [c2]
          refine canonicalFor_congr _ _ _ _ j2 j3 ?_
          exact canonicalFor_congr _ _ _ _ rfl (fun _ => rfl) hcan0
      · have hne : e.1 ≠ e0.1 := by
          intro hc
          exact hnd.1 (hc ▸ List.mem_map_of_mem Prod.fst hrest)
        have hfresh2 : ∀ e2 ∈ rest,
            ({ m with
              paths := Function.update m.paths e0.1 (some e0.2),
              tiling := m.tiling.insert_path e0.1 e0.2.coords } : Model).paths e2.1 =
              none := by
          intro e2 he2
          have hne2 : e2.1 ≠ e0.1 := by
            intro hc
            exact hnd.1 (hc ▸ List.mem_map_of_mem Prod.fst he2)
          show Function.update m.paths e0.1 (some e0.2) e2.1 = none
          rw [Function.update_noteq hne2]
          exact hfresh e2 (List.mem_cons_of_mem _ he2)
        have hent2 : ∀ e2 ∈ rest, ∀ tid,
            ({ m with
              paths := Function.update m.paths e0.1 (some e0.2),
              tiling := m.tiling.insert_path e0.1 e0.2.coords } : Model).tiling.entryOpt
              tid e2.1 = none := by
          intro e2 he2 tid
          have hne2 : e2.1 ≠ e0.1 := by
            intro hc
            exact hnd.1 (hc ▸ List.mem_map_of_mem Prod.fst he2)
          show (m.tiling.insert_path e0.1 e0.2.coords).entryOpt tid e2.1 = none
          rw [entryOpt_insert_path_other m.tiling e0.1 e2.1 e0.2.coords hne2 tid]
          exact hent e2 (List.mem_cons_of_mem _ he2) tid
        obtain ⟨k1, k2⟩ := ih _ hnd.2 hfresh2 hent2 e hrest
        exact ⟨c1 ▸ k1, c2 ▸ k2⟩

theorem shift_paths_cons_none (m : Model) (b : PathId) (rest : List PathId)
    (delta : Coord) (hp : m.paths b = none) :
    (m.shift_paths (b :: rest) delta).paths = (m.shift_paths rest delta).paths ∧
    (m.shift_paths (b :: rest) delta).tiling = (m.shift_paths rest delta).tiling ∧
    (m.shift_paths (b :: rest) delta).selected = (m.shift_paths rest delta).selected ∧
    (m.shift_paths (b :: rest) delta).hidden = (m.shift_paths rest delta).hidden := by
  refine ⟨?_, ?_, ?_, ?_⟩ <;> simp only [Model.shift_paths, List.foldl_cons, hp]

theorem shift_paths_cons_some (m : Model) (b : PathId) (rest : List PathId)
    (delta : Coord) (p : PPath) (hp : m.paths b = some p) :
    (m.shift_paths (b :: rest) delta).paths =
      (({ m with
          paths := Function.update m.paths b (some (p.translate delta)),
          tiling := (m.tiling.remove_path b).insert_path b
            (p.translate delta).coords } : Model).shift_paths rest delta).paths ∧
    (m.shift_paths (b :: rest) delta).tiling =
      (({ m with
          paths := Function.update m.paths b (some (p.translate delta)),
          tiling := (m.tiling.remove_path b).insert_path b
            (p.translate delta).coords } : Model).shift_paths rest delta).tiling ∧
    (m.shift_paths (b :: rest) delta).selected =
      (({ m with
          paths := Function.update m.paths b (some (p.translate delta)),
          tiling := (m.tiling.remove_path b).insert_path b
            (p.translate delta).coords } : Model).shift_paths rest delta).selected ∧
    (m.shift_paths (b :: rest) delta).hidden =
      (({ m with
          paths := Function.update m.paths b (some (p.translate delta)),
          tiling := (m.tiling.remove_path b).insert_path b
            (p.translate delta).coords } : Model).shift_paths rest delta).hidden := by
  refine ⟨?_, ?_, ?_, ?_⟩ <;> simp only [Model.shift_paths, List.foldl_cons, hp]

/-- `shift_paths` does not touch the selected/hidden sets, nor any path id
outside the shifted list. -/
theorem shift_paths_untouched (ids : List PathId) (m : Model) (delta : Coord) :
    (m.shift_paths ids delta).selected = m.selected ∧
    (m.shift_paths ids delta).hidden = m.hidden ∧
    ∀ q, q ∉ ids →
      (m.shift_paths ids delta).paths q = m.paths q ∧
      (m.shift_paths ids delta).tiling.tile_ids q = m.tiling.tile_ids q ∧
      ∀ tid, (m.shift_paths ids delta).tiling.entryOpt tid q = m.tiling.entryOpt tid q := by
  induction ids generalizing m with
  | nil => exact ⟨rfl, rfl, fun q _ => ⟨rfl, rfl, fun _ => rfl⟩⟩
  | cons b rest ih =>
      cases hp : m.paths b with
      | none =>
          obtain ⟨c1, c2, c3, c4⟩ := shift_paths_cons_none m b rest delta hp
          obtain ⟨i1, i2, i3⟩ := ih m
          refine ⟨c3.trans i1, c4.trans i2, fun q hq => ?_⟩
          have hq2 : q ∉ rest := fun hc => hq (List.mem_cons_of_mem _ hc)
          obtain ⟨j1, j2, j3⟩ := i3 q hq2
          rw [c1, c2]
          exact ⟨j1, j2, j3⟩
      | some p =>
          obtain ⟨c1, c2, c3, c4⟩ := shift_paths_cons_some m b rest delta p hp
          obtain ⟨i1, i2, i3⟩ := ih
            { m with
              paths := Function.update m.paths b (some (p.translate delta)),
              tiling := (m.tiling.remove_path b).insert_path b (p.translate delta).coords }
          refine ⟨c3.trans i1, c4.trans i2, fun q hq => ?_⟩
          simp only [List.mem_cons, not_or] at hq
          obtain ⟨j1, j2, j3⟩ := i3 q hq.2
          rw [c1, c2]
          refine ⟨j1.trans ?_, j2.trans ?_, fun tid => (j3 tid).trans ?_⟩
          · exact Function.update_noteq hq.1 _ _
          · show ((m.tiling.remove_path b).insert_path b (p.translate delta).coords).tile_ids q
              = m.tiling.tile_ids q
            rw [tile_ids_insert_path, if_neg hq.1, tile_ids_remove_path_other _ _ _ hq.1]
          · show ((m.tiling.remove_path b).insert_path b
                (p.translate delta).coords).entryOpt tid q = m.tiling.entryOpt tid q
            rw [entryOpt_insert_path_other _ b q _ hq.1 tid,
              entryOpt_remove_path_other m.tiling b q hq.1 tid]

/-- After `shift_paths` over present, canonically indexed, pairwise-distinct
ids: every shifted path is stored translated and canonically re-indexed. -/
theorem shift_paths_shifted (ids : List PathId) (m : Model) (delta : Coord)
    (snap : PathId → PPath) (hnd : ids.Nodup)
    (hpres : ∀ id ∈ ids, m.paths id = some (snap id))
    (hcan : ∀ id ∈ ids, canonicalFor m.tiling id (snap id).coords) :
    ∀ id ∈ ids, (m.shift_paths ids delta).paths id = some ((snap id).translate delta) ∧
      canonicalFor (m.shift_paths ids delta).tiling id ((snap id).translate delta).coords := by
  induction ids generalizing m with
  | nil => exact fun id hid => absurd hid (List.not_mem_nil id)
  | cons b rest ih =>
      obtain ⟨hnd1, hnd2⟩ := List.nodup_cons.mp hnd
      have hp := hpres b (List.mem_cons_self b rest)
      obtain ⟨c1, c2, c3, c4⟩ := shift_paths_cons_some m b rest delta (snap b) hp
      obtain ⟨hcan0, hother1, hother2⟩ :=
        tiling_reindex m.tiling b (snap b).coords ((snap b).translate delta).coords
          (hcan b (List.mem_cons_self b rest))
      intro id hid
      rcases List.mem_cons.mp hid with rfl | hrest
      · obtain ⟨_, _, i3⟩ := shift_paths_untouched rest
            { m with
              paths := Function.update m.paths id (some ((snap id).translate delta)),
              tiling := (m.tiling.remove_path id).insert_path id
                ((snap id).translate delta).coords } delta
        obtain ⟨j1, j2, j3⟩ := i3 id hnd1
        constructor
        · rw [c1, j1]
          exact Function.update_same _ _ _
        · rw [c2]
          refine canonicalFor_congr _ _ _ _ j2 j3 ?_
          exact canonicalFor_congr _ _ _ _ rfl (fun _ => rfl) hcan0
      · have hne : id ≠ b := fun hc => hnd1 (hc ▸ hrest)
        have hpres2 : ∀ id2 ∈ rest,
            ({ m with
              paths := Function.update m.paths b (some ((snap b).translate delta)),
              tiling := (m.tiling.remove_path b).insert_path b
                ((snap b).translate delta).coords } : Model).paths id2 = some (snap id2) := by
          intro id2 hid2
          have hne2 : id2 ≠ b := fun hc => hnd1 (hc ▸ hid2)
          show Function.update m.paths b (some ((snap b).translate delta)) id2 =
            some (snap id2)
          rw [Function.update_noteq hne2]
          exact hpres id2 (List.mem_cons_of_mem _ hid2)
        have hcan2 : ∀ id2 ∈ rest,
            canonicalFor
              ({ m with
                paths := Function.update m.paths b (some ((snap b).translate delta)),
                tiling := (m.tiling.remove_path b).insert_path b
                  ((snap b).translate delta).coords } : Model).tiling id2
              (snap id2).coords := by
          intro id2 hid2
          have hne2 : id2 ≠ b := fun hc => hnd1 (hc ▸ hid2)
          refine canonicalFor_congr _ _ _ _ (hother1 id2 hne2) (fun tid => hother2 tid id2 hne2)
            (hcan id2 (List.mem_cons_of_mem _ hid2))
        obtain ⟨k1, k2⟩ := ih _ hnd2 hpres2 hcan2 id hrest
        exact ⟨c1 ▸ k1, c2 ▸ k2⟩

/-- The `remove_paths` fold does not touch any path id outside the removed
list. -/
theorem remove_fold_untouched (ids : List PathId) (acc : Model × List (PathId × PPath))
    (q : PathId) (hq : q ∉ ids) :
    (ids.foldl
      (fun acc id =>
        match acc.1.paths id with
        | none => acc
        | some p =>
            ({ acc.1 with
                paths := Function.update acc.1.paths id none,
                tiling := acc.1.tiling.remove_path id,
                selected := Function.update acc.1.selected id false,
                hidden := Function.update acc.1.hidden id false },
              acc.2 ++ [(id, p)])) acc).1.paths q = acc.1.paths q ∧
    (ids.foldl
      (fun acc id =>
        match acc.1.paths id with
        | none => acc
        | some p =>
            ({ acc.1 with
                paths := Function.update acc.1.paths id none,
                tiling := acc.1.tiling.remove_path id,
                selected := Function.update acc.1.selected id false,
                hidden := Function.update acc.1.hidden id false },
              acc.2 ++ [(id, p)])) acc).1.tiling.tile_ids q = acc.1.tiling.tile_ids q ∧
    (∀ tid, (ids.foldl
      (fun acc id =>
        match acc.1.paths id with
        | none => acc
        | some p =>
            ({ acc.1 with
                paths := Function.update acc.1.paths id none,
                tiling := acc.1.tiling.remove_path id,
                selected := Function.update acc.1.selected id false,
                hidden := Function.update acc.1.hidden id false },
              acc.2 ++ [(id, p)])) acc).1.tiling.entryOpt tid q =
      acc.1.tiling.entryOpt tid q) ∧
    (ids.foldl
      (fun acc id =>
        match acc.1.paths id with
        | none => acc
        | some p =>
            ({ acc.1 with
                paths := Function.update acc.1.paths id none,
                tiling := acc.1.tiling.remove_path id,
                selected := Function.update acc.1.selected id false,
                hidden := Function.update acc.1.hidden id false },
              acc.2 ++ [(id, p)])) acc).1.selected q = acc.1.selected q ∧
    (ids.foldl
      (fun acc id =>
        match acc.1.paths id with
        | none => acc
        | some p =>
            ({ acc.1 with
                paths := Function.update acc.1.paths id none,
                tiling := acc.1.tiling.remove_path id,
                selected := Function.update acc.1.selected id false,
                hidden := Function.update acc.1.hidden id false },
              acc.2 ++ [(id, p)])) acc).1.hidden q = acc.1.hidden q := by
  induction ids generalizing acc with
  | nil => exact ⟨rfl, rfl, fun _ => rfl, rfl, rfl⟩
  | cons b rest ih =>
      simp only [List.mem_cons, not_or] at hq
      simp only [List.foldl_cons]
      rcases hp : acc.1.paths b with _ | p <;> simp only [hp]
      · exact ih acc hq.2
      · obtain ⟨j1, j2, j3, j4, j5⟩ := ih _ hq.2
        refine ⟨j1.trans ?_, j2.trans ?_, fun tid => (j3 tid).trans ?_,
          j4.trans ?_, j5.trans ?_⟩
        · exact Function.update_noteq hq.1 _ _
        · exact tile_ids_remove_path_other _ _ _ hq.1
        · exact entryOpt_remove_path_other _ _ _ hq.1 _
        · exact Function.update_noteq hq.1 _ _
        · exact Function.update_noteq hq.1 _ _

/-- The `remove_paths` fold over present, canonically indexed, distinct ids:
the captured snapshot list is exactly the removed `(id, path)` pairs in order,
and every removed id ends with no stored path, no index entry anywhere, and
cleared selected/hidden flags. -/
theorem remove_fold_effects (ids : List PathId) (acc : Model × List (PathId × PPath))
    (snap : PathId → PPath) (hnd : ids.Nodup)
    (hpres : ∀ id ∈ ids, acc.1.paths id = some (snap id))
    (hcan : ∀ id ∈ ids, canonicalFor acc.1.tiling id (snap id).coords) :
    ((ids.foldl
      (fun acc id =>
        match acc.1.paths id with
        | none => acc
        | some p =>
            ({ acc.1 with
                paths := Function.update acc.1.paths id none,
                tiling := acc.1.tiling.remove_path id,
                selected := Function.update acc.1.selected id false,
                hidden := Function.update acc.1.hidden id false },
              acc.2 ++ [(id, p)])) acc).2 =
      acc.2 ++ ids.map (fun id => (id, snap id))) ∧
    ∀ id ∈ ids,
      (ids.foldl
        (fun acc id =>
          match acc.1.paths id with
          | none => acc
          | some p =>
              ({ acc.1 with
                  paths := Function.update acc.1.paths id none,
                  tiling := acc.1.tiling.remove_path id,
                  selected := Function.update acc.1.selected id false,
                  hidden := Function.update acc.1.hidden id false },
                acc.2 ++ [(id, p)])) acc).1.paths id = none ∧
      (ids.foldl
        (fun acc id =>
          match acc.1.paths id with
          | none => acc
          | some p =>
              ({ acc.1 with
                  paths := Function.update acc.1.paths id none,
                  tiling := acc.1.tiling.remove_path id,
                  selected := Function.update acc.1.selected id false,
                  hidden := Function.update acc.1.hidden id false },
                acc.2 ++ [(id, p)])) acc).1.tiling.tile_ids id = none ∧
      (∀ tid, (ids.foldl
        (fun acc id =>
          match acc.1.paths id with
          | none => acc
          | some p =>
              ({ acc.1 with
                  paths := Function.update acc.1.paths id none,
                  tiling := acc.1.tiling.remove_path id,
                  selected := Function.update acc.1.selected id false,
                  hidden := Function.update acc.1.hidden id false },
                acc.2 ++ [(id, p)])) acc).1.tiling.entryOpt tid id = none) ∧
      (ids.foldl
        (fun acc id =>
          match acc.1.paths id with
          | none => acc
          | some p =>
              ({ acc.1 with
                  paths := Function.update acc.1.paths id none,
                  tiling := acc.1.tiling.remove_path id,
                  selected := Function.update acc.1.selected id false,
                  hidden := Function.update acc.1.hidden id false },
                acc.2 ++ [(id, p)])) acc).1.selected id = false ∧
      (ids.foldl
        (fun acc id =>
          match acc.1.paths id with
          | none => acc
          | some p =>
              ({ acc.1 with
                  paths := Function.update acc.1.paths id none,
                  tiling := acc.1.tiling.remove_path id,
                  selected := Function.update acc.1.selected id false,
                  hidden := Function.update acc.1.hidden id false },
                acc.2 ++ [(id, p)])) acc).1.hidden id = false := by
  induction ids generalizing acc with
  | nil => exact ⟨by simp, fun id hid => absurd hid (List.not_mem_nil id)⟩
  | cons b rest ih =>
      obtain ⟨hnd1, hnd2⟩ := List.nodup_cons.mp hnd
      have hpb := hpres b (List.mem_cons_self b rest)
      obtain ⟨hc1, hc2, hc3, hc4⟩ :=
        remove_path_clears acc.1.tiling b (snap b).coords
          (hcan b (List.mem_cons_self b rest))
      simp only [List.foldl_cons, hpb]
      have hpres2 : ∀ id ∈ rest,
          ({ acc.1 with
              paths := Function.update acc.1.paths b none,
              tiling := acc.1.tiling.remove_path b,
              selected := Function.update acc.1.selected b false,
              hidden := Function.update acc.1.hidden b false } : Model).paths id =
            some (snap id) := by
        intro id hid
        have hne : id ≠ b := fun hc => hnd1 (hc ▸ hid)
        show Function.update acc.1.paths b none id = some (snap id)
        rw [Function.update_noteq hne]
        exact hpres id (List.mem_cons_of_mem _ hid)
      have hcan2 : ∀ id ∈ rest,
          canonicalFor
            ({ acc.1 with
                paths := Function.update acc.1.paths b none,
                tiling := acc.1.tiling.remove_path b,
                selected := Function.update acc.1.selected b false,
                hidden := Function.update acc.1.hidden b false } : Model).tiling id
            (snap id).coords := by
        intro id hid
        have hne : id ≠ b := fun hc => hnd1 (hc ▸ hid)
        exact canonicalFor_congr _ _ _ _ (hc3 id hne) (fun tid => hc4 tid id hne)
          (hcan id (List.mem_cons_of_mem _ hid))
      obtain ⟨icap, ie⟩ := ih
        ({ acc.1 with
            paths := Function.update acc.1.paths b none,
            tiling := acc.1.tiling.remove_path b,
            selected := Function.update acc.1.selected b false,
            hidden := Function.update acc.1.hidden b false },
          acc.2 ++ [(b, snap b)]) hnd2 hpres2 hcan2
      constructor
      · rw [icap]
        simp [List.append_assoc]
      · intro id hid
        rcases List.mem_cons.mp hid with rfl | hrest
        · obtain ⟨j1, j2, j3, j4, j5⟩ := remove_fold_untouched rest _ id hnd1
          refine ⟨j1.trans ?_, j2.trans ?_, fun tid => (j3 tid).trans ?_,
            j4.trans ?_, j5.trans ?_⟩
          · exact Function.update_same _ _ _
          · exact hc1
          · exact hc2 _
          · exact Function.update_same _ _ _
          · exact Function.update_same _ _ _
        · exact ie id hrest

/-- `remove_paths` at the operation level: untouched ids keep all their
fields. -/
theorem remove_paths_untouched (ids : List PathId) (m : Model) (q : PathId)
    (hq : q ∉ ids) :
    (m.remove_paths ids).paths q = m.paths q ∧
    (m.remove_paths ids).tiling.tile_ids q = m.tiling.tile_ids q ∧
    (∀ tid, (m.remove_paths ids).tiling.entryOpt tid q = m.tiling.entryOpt tid q) ∧
    (m.remove_paths ids).selected q = m.selected q ∧
    (m.remove_paths ids).hidden q = m.hidden q :=
  remove_fold_untouched ids (m, []) q hq

/-- `remove_paths` at the operation level: the captured command payload and
the cleared fields of the removed ids. -/
theorem remove_paths_effects (ids : List PathId) (m : Model) (snap : PathId → PPath)
    (hnd : ids.Nodup)
    (hpres : ∀ id ∈ ids, m.paths id = some (snap id))
    (hcan : ∀ id ∈ ids, canonicalFor m.tiling id (snap id).coords) :
    (Model.remove_paths_core m ids).2 = ids.map (fun id => (id, snap id)) ∧
    ∀ id ∈ ids,
      (m.remove_paths ids).paths id = none ∧
      (m.remove_paths ids).tiling.tile_ids id = none ∧
      (∀ tid, (m.remove_paths ids).tiling.entryOpt tid id = none) ∧
      (m.remove_paths ids).selected id = false ∧
      (m.remove_paths ids).hidden id = false := by
  obtain ⟨h1, h2⟩ := remove_fold_effects ids (m, []) snap hnd hpres hcan
  exact ⟨by simpa using h1, h2⟩

theorem map_fst_map_pair (snap : PathId → PPath) (l : List PathId) :
    (l.map fun id => (id, snap id)).map Prod.fst = l := by
  induction l with
  | nil => rfl
  | cons b rest ih => rw [List.map_cons, List.map_cons, ih]

set_option maxHeartbeats 1600000 in
/-- **C3** (amended): from a state whose fields satisfy what holds in every
reachable state for the command's ids, applying a command and then its
computed inverse (as performed by `Model::rollback`, fed exactly the command
the operation pushed) restores the path collection and the tile index
field-by-field for all three kinds — `Insert` of any batch of fresh paths,
`Shift` of any set of ids, `Remove` of any set of ids — and restores the
selected and hidden sets for `Insert` and `Shift`; for `Remove`, however, the
selected and hidden sets are NOT restored: the round trip clears the removed
ids from both sets (re-insertion does not re-select or re-hide), which is the
correction to the claim. -/
theorem command_inversion (m : Model) (ps : List (PathId × PPath))
    (ids : List PathId) (delta : Coord) (snap : PathId → PPath) :
    ((ps.map Prod.fst).Nodup →
      (∀ e ∈ ps, m.paths e.1 = none) →
      (∀ e ∈ ps, m.tiling.tile_ids e.1 = none) →
      (∀ e ∈ ps, ∀ tid, m.tiling.entryOpt tid e.1 = none) →
      (∀ e ∈ ps, m.selected e.1 = false) →
      (∀ e ∈ ps, m.hidden e.1 = false) →
      (∀ q, ((m.insert_paths ps).rollback
          (Command.insert (ps.map Prod.fst))).paths q = m.paths q) ∧
      (∀ q, ((m.insert_paths ps).rollback
          (Command.insert (ps.map Prod.fst))).tiling.tile_ids q = m.tiling.tile_ids q) ∧
      (∀ tid q, ((m.insert_paths ps).rollback
          (Command.insert (ps.map Prod.fst))).tiling.entryOpt tid q =
        m.tiling.entryOpt tid q) ∧
      (∀ q, ((m.insert_paths ps).rollback
          (Command.insert (ps.map Prod.fst))).selected q = m.selected q) ∧
      (∀ q, ((m.insert_paths ps).rollback
          (Command.insert (ps.map Prod.fst))).hidden q = m.hidden q)) ∧
    (ids.Nodup →
      (∀ id ∈ ids, m.paths id = some (snap id)) →
      (∀ id ∈ ids, canonicalFor m.tiling id (snap id).coords) →
      (∀ q, ((m.shift_paths ids delta).rollback
          (Command.shift ids delta)).paths q = m.paths q) ∧
      (∀ q, ((m.shift_paths ids delta).rollback
          (Command.shift ids delta)).tiling.tile_ids q = m.tiling.tile_ids q) ∧
      (∀ tid q, ((m.shift_paths ids delta).rollback
          (Command.shift ids delta)).tiling.entryOpt tid q = m.tiling.entryOpt tid q) ∧
      (∀ q, ((m.shift_paths ids delta).rollback
          (Command.shift ids delta)).selected q = m.selected q) ∧
      (∀ q, ((m.shift_paths ids delta).rollback
          (Command.shift ids delta)).hidden q = m.hidden q)) ∧
    (ids.Nodup →
      (∀ id ∈ ids, m.paths id = some (snap id)) →
      (∀ id ∈ ids, canonicalFor m.tiling id (snap id).coords) →
      (∀ q, ((m.remove_paths ids).rollback
          (Command.remove (Model.remove_paths_core m ids).2)).paths q = m.paths q) ∧
      (∀ q, ((m.remove_paths ids).rollback
          (Command.remove (Model.remove_paths_core m ids).2)).tiling.tile_ids q =
        m.tiling.tile_ids q) ∧
      (∀ tid q, ((m.remove_paths ids).rollback
          (Command.remove (Model.remove_paths_core m ids).2)).tiling.entryOpt tid q =
        m.tiling.entryOpt tid q) ∧
      (∀ q, ((m.remove_paths ids).rollback
          (Command.remove (Model.remove_paths_core m ids).2)).selected q =
        if q ∈ ids then false else m.selected q) ∧
      (∀ q, ((m.remove_paths ids).rollback
          (Command.remove (Model.remove_paths_core m ids).2)).hidden q =
        if q ∈ ids then false else m.hidden q)) := by
  refine ⟨?_, ?_, ?_⟩
  · intro hnd hfresh htids hent hsel hhid
    have hpres := insert_paths_present ps m hnd hfresh hent
    obtain ⟨hiS, hiH, hiU⟩ := insert_paths_untouched ps m
    have hex : ∀ id ∈ ps.map Prod.fst, ∃ p, (m.insert_paths ps).paths id = some p ∧
        canonicalFor (m.insert_paths ps).tiling id p.coords := by
      intro id hid
      obtain ⟨e, he, rfl⟩ := List.mem_map.mp hid
      exact ⟨e.2, (hpres e he).1, (hpres e he).2⟩
    haveI : Nonempty PPath := ⟨⟨0, []⟩⟩
    choose! snap2 hs1 hs2 using hex
    obtain ⟨-, heff⟩ :=
      remove_paths_effects (ps.map Prod.fst) (m.insert_paths ps) snap2 hnd hs1 hs2
    refine ⟨?_, ?_, ?_, ?_, ?_⟩
    · intro q
      simp only [Model.rollback]
      by_cases hq : q ∈ ps.map Prod.fst
      · obtain ⟨e, he, rfl⟩ := List.mem_map.mp hq
        rw [(heff e.1 hq).1, hfresh e he]
      · obtain ⟨r1, r2, r3, r4, r5⟩ :=
          remove_paths_untouched (ps.map Prod.fst) (m.insert_paths ps) q hq
        obtain ⟨u1, u2, u3⟩ := hiU q hq
        rw [r1, u1]
    · intro q
      simp only [Model.rollback]
      by_cases hq : q ∈ ps.map Prod.fst
      · obtain ⟨e, he, rfl⟩ := List.mem_map.mp hq
        rw [(heff e.1 hq).2.1, htids e he]
      · obtain ⟨r1, r2, r3, r4, r5⟩ :=
          remove_paths_untouched (ps.map Prod.fst) (m.insert_paths ps) q hq
        obtain ⟨u1, u2, u3⟩ := hiU q hq
        rw [r2, u2]
    · intro tid q
      simp only [Model.rollback]
      by_cases hq : q ∈ ps.map Prod.fst
      · obtain ⟨e, he, rfl⟩ := List.mem_map.mp hq
        rw [(heff e.1 hq).2.2.1 tid, hent e he tid]
      · obtain ⟨r1, r2, r3, r4, r5⟩ :=
          remove_paths_untouched (ps.map Prod.fst) (m.insert_paths ps) q hq
        obtain ⟨u1, u2, u3⟩ := hiU q hq
        rw [r3 tid, u3 tid]
    · intro q
      simp only [Model.rollback]
      by_cases hq : q ∈ ps.map Prod.fst
      · obtain ⟨e, he, rfl⟩ := List.mem_map.mp hq
        rw [(heff e.1 hq).2.2.2.1, hsel e he]
      · obtain ⟨r1, r2, r3, r4, r5⟩ :=
          remove_paths_untouched (ps.map Prod.fst) (m.insert_paths ps) q hq
        rw [r4, hiS]
    · intro q
      simp only [Model.rollback]
      by_cases hq : q ∈ ps.map Prod.fst
      · obtain ⟨e, he, rfl⟩ := List.mem_map.mp hq
        rw [(heff e.1 hq).2.2.2.2, hhid e he]
      · obtain ⟨r1, r2, r3, r4, r5⟩ :=
          remove_paths_untouched (ps.map Prod.fst) (m.insert_paths ps) q hq
        rw [r5, hiH]
  · intro hnd hpres hcan
    have h2 := shift_paths_shifted ids m delta snap hnd hpres hcan
    obtain ⟨s1, s2, s3⟩ := shift_paths_untouched ids m delta
    have hpres2 : ∀ id ∈ ids, (m.shift_paths ids delta).paths id =
        some ((fun i => (snap i).translate delta) id) := fun id hid => (h2 id hid).1
    have hcan2 : ∀ id ∈ ids, canonicalFor (m.shift_paths ids delta).tiling id
        ((fun i => (snap i).translate delta) id).coords := fun id hid => (h2 id hid).2
    have h4 := shift_paths_shifted ids (m.shift_paths ids delta) (Coord.neg delta)
      (fun i => (snap i).translate delta) hnd hpres2 hcan2
    obtain ⟨t1, t2, t3⟩ := shift_paths_untouched ids (m.shift_paths ids delta) (Coord.neg delta)
    refine ⟨?_, ?_, ?_, ?_, ?_⟩
    · intro q
      simp only [Model.rollback]
      by_cases hq : q ∈ ids
      · have h5 : ((m.shift_paths ids delta).shift_paths ids (Coord.neg delta)).paths q =
            some (((snap q).translate delta).translate (Coord.neg delta)) := (h4 q hq).1
        rw [h5, PPath.translate_cancel]
        exact (hpres q hq).symm
      · obtain ⟨j1, j2, j3⟩ := t3 q hq
        obtain ⟨k1, k2, k3⟩ := s3 q hq
        rw [j1, k1]
    · intro q
      simp only [Model.rollback]
      by_cases hq : q ∈ ids
      · have hc : canonicalFor
            ((m.shift_paths ids delta).shift_paths ids (Coord.neg delta)).tiling q
            (((snap q).translate delta).translate (Coord.neg delta)).coords := (h4 q hq).2
        rw [hc.1, PPath.translate_cancel]
        exact (hcan q hq).1.symm
      · obtain ⟨j1, j2, j3⟩ := t3 q hq
        obtain ⟨k1, k2, k3⟩ := s3 q hq
        rw [j2, k2]
    · intro tid q
      simp only [Model.rollback]
      by_cases hq : q ∈ ids
      · have hc : canonicalFor
            ((m.shift_paths ids delta).shift_paths ids (Coord.neg delta)).tiling q
            (((snap q).translate delta).translate (Coord.neg delta)).coords := (h4 q hq).2
        rw [hc.2 tid, PPath.translate_cancel]
        exact ((hcan q hq).2 tid).symm
      · obtain ⟨j1, j2, j3⟩ := t3 q hq
        obtain ⟨k1, k2, k3⟩ := s3 q hq
        rw [j3 tid, k3 tid]
    · intro q
      simp only [Model.rollback]
      rw [t1, s1]
    · intro q
      simp only [Model.rollback]
      rw [t2, s2]
  · intro hnd hpres hcan
    obtain ⟨hcap, heff⟩ := remove_paths_effects ids m snap hnd hpres hcan
    simp only [hcap, Model.rollback]
    have hmapfst := map_fst_map_pair snap ids
    have hnd2 : ((ids.map fun id => (id, snap id)).map Prod.fst).Nodup := by
      rw [hmapfst]
      exact hnd
    have hfresh2 : ∀ e ∈ ids.map (fun id => (id, snap id)),
        (m.remove_paths ids).paths e.1 = none := by
      intro e he
      obtain ⟨id, hid, rfl⟩ := List.mem_map.mp he
      exact (heff id hid).1
    have hent2 : ∀ e ∈ ids.map (fun id => (id, snap id)), ∀ tid,
        (m.remove_paths ids).tiling.entryOpt tid e.1 = none := by
      intro e he tid
      obtain ⟨id, hid, rfl⟩ := List.mem_map.mp he
      exact (heff id hid).2.2.1 tid
    have hinspres := insert_paths_present (ids.map fun id => (id, snap id))
      (m.remove_paths ids) hnd2 hfresh2 hent2
    obtain ⟨iS, iH, iU⟩ :=
      insert_paths_untouched (ids.map fun id => (id, snap id)) (m.remove_paths ids)
    refine ⟨?_, ?_, ?_, ?_, ?_⟩
    · intro q
      by_cases hq : q ∈ ids
      · have hmem : (q, snap q) ∈ ids.map (fun id => (id, snap id)) :=
          List.mem_map_of_mem _ hq
        have h5 : ((m.remove_paths ids).insert_paths
            (ids.map fun id => (id, snap id))).paths q = some (snap q) :=
          (hinspres (q, snap q) hmem).1
        rw [h5]
        exact (hpres q hq).symm
      · have hq2 : q ∉ (ids.map fun id => (id, snap id)).map Prod.fst := by
          rw [hmapfst]
          exact hq
        obtain ⟨u1, u2, u3⟩ := iU q hq2
        obtain ⟨r1, r2, r3, r4, r5⟩ := remove_paths_untouched ids m q hq
        rw [u1, r1]
    · intro q
      by_cases hq : q ∈ ids
      · have hmem : (q, snap q) ∈ ids.map (fun id => (id, snap id)) :=
          List.mem_map_of_mem _ hq
        have hc2 : canonicalFor ((m.remove_paths ids).insert_paths
            (ids.map fun id => (id, snap id))).tiling q (snap q).coords :=
          (hinspres (q, snap q) hmem).2
        rw [hc2.1]
        exact (hcan q hq).1.symm
      · have hq2 : q ∉ (ids.map fun id => (id, snap id)).map Prod.fst := by
          rw [hmapfst]
          exact hq
        obtain ⟨u1, u2, u3⟩ := iU q hq2
        obtain ⟨r1, r2, r3, r4, r5⟩ := remove_paths_untouched ids m q hq
        rw [u2, r2]
    · intro tid q
      by_cases hq : q ∈ ids
      · have hmem : (q, snap q) ∈ ids.map (fun id => (id, snap id)) :=
          List.mem_map_of_mem _ hq
        have hc2 : canonicalFor ((m.remove_paths ids).insert_paths
            (ids.map fun id => (id, snap id))).tiling q (snap q).coords :=
          (hinspres (q, snap q) hmem).2
        rw [hc2.2 tid]
        exact ((hcan q hq).2 tid).symm
      · have hq2 : q ∉ (ids.map fun id => (id, snap id)).map Prod.fst := by
          rw [hmapfst]
          exact hq
        obtain ⟨u1, u2, u3⟩ := iU q hq2
        obtain ⟨r1, r2, r3, r4, r5⟩ := remove_paths_untouched ids m q hq
        rw [u3 tid, r3 tid]
    · intro q
      rw [iS]
      by_cases hq : q ∈ ids
      · rw [(heff q hq).2.2.2.1, if_pos hq]
      · obtain ⟨r1, r2, r3, r4, r5⟩ := remove_paths_untouched ids m q hq
        rw [r4, if_neg hq]
    · intro q
      rw [iH]
      by_cases hq : q ∈ ids
      · rw [(heff q hq).2.2.2.2, if_pos hq]
      · obtain ⟨r1, r2, r3, r4, r5⟩ := remove_paths_untouched ids m q hq
        rw [r5, if_neg hq]

theorem command_inversion_witness :
    (((Model.initial.insert_paths [(0, ⟨0, [⟨0, 0⟩, ⟨10, 0⟩]⟩)]).rollback
        (Command.insert [0])).paths 0 = Model.initial.paths 0) ∧
    ((((Model.initial.insert_paths [(0, ⟨0, [⟨0, 0⟩, ⟨10, 0⟩]⟩)]).shift_paths [0]
          ⟨3, 4⟩).rollback (Command.shift [0] ⟨3, 4⟩)).paths 0 =
      (Model.initial.insert_paths [(0, ⟨0, [⟨0, 0⟩, ⟨10, 0⟩]⟩)]).paths 0) ∧
    ((((Model.initial.insert_paths [(0, ⟨0, [⟨0, 0⟩, ⟨10, 0⟩]⟩)]).remove_paths [0]).rollback
        (Command.remove
          (Model.remove_paths_core
            (Model.initial.insert_paths [(0, ⟨0, [⟨0, 0⟩, ⟨10, 0⟩]⟩)]) [0]).2)).selected 0 =
      if (0 : PathId) ∈ [(0 : PathId)] then false
      else (Model.initial.insert_paths [(0, ⟨0, [⟨0, 0⟩, ⟨10, 0⟩]⟩)]).selected 0) :=
  ⟨((command_inversion Model.initial [(0, ⟨0, [⟨0, 0⟩, ⟨10, 0⟩]⟩)] [0] ⟨3, 4⟩
      (fun _ => ⟨0, [⟨0, 0⟩, ⟨10, 0⟩]⟩)).1 (by decide)
      (fun e he => by rw [List.mem_singleton.mp he]; rfl)
      (fun e he => by rw [List.mem_singleton.mp he]; rfl)
      (fun e he tid => by rw [List.mem_singleton.mp he]; rfl)
      (fun e he => by rw [List.mem_singleton.mp he]; rfl)
      (fun e he => by rw [List.mem_singleton.mp he]; rfl)).1 0,
   ((command_inversion (Model.initial.insert_paths [(0, ⟨0, [⟨0, 0⟩, ⟨10, 0⟩]⟩)])
      [(0, ⟨0, [⟨0, 0⟩, ⟨10, 0⟩]⟩)] [0] ⟨3, 4⟩
      (fun _ => ⟨0, [⟨0, 0⟩, ⟨10, 0⟩]⟩)).2.1 (by decide)
      (fun id hid => by rw [List.mem_singleton.mp hid]; rfl)
      (fun id hid => by
        rw [List.mem_singleton.mp hid]
        exact (insert_path_establishes Tiling.empty 0 [⟨0, 0⟩, ⟨10, 0⟩]
          (fun _ => rfl)).1)).1 0,
   ((command_inversion (Model.initial.insert_paths [(0, ⟨0, [⟨0, 0⟩, ⟨10, 0⟩]⟩)])
      [(0, ⟨0, [⟨0, 0⟩, ⟨10, 0⟩]⟩)] [0] ⟨3, 4⟩
      (fun _ => ⟨0, [⟨0, 0⟩, ⟨10, 0⟩]⟩)).2.2 (by decide)
      (fun id hid => by rw [List.mem_singleton.mp hid]; rfl)
      (fun id hid => by
        rw [List.mem_singleton.mp hid]
        exact (insert_path_establishes Tiling.empty 0 [⟨0, 0⟩, ⟨10, 0⟩]
          (fun _ => rfl)).1)).2.2.2.1 0⟩

/-- **C3 counterexample**: a reachable state (insert one path, then
marquee-select it) in which the `Remove` command round trip does not return
the state: the path is selected before, and after `remove_paths` followed by
its computed inverse (re-insertion of the captured snapshot) it is no longer
selected. -/
theorem command_inversion_counterexample :
    ((Model.initial.insert_paths [(0, ⟨0, [⟨0, 0⟩, ⟨10, 0⟩]⟩)]).select_paths_with
        ⟨⟨-100, -100⟩, ⟨100, 100⟩⟩ ⟨⟨0, 0⟩, ⟨10, 10⟩⟩).selected 0 = true ∧
    ((((Model.initial.insert_paths [(0, ⟨0, [⟨0, 0⟩, ⟨10, 0⟩]⟩)]).select_paths_with
        ⟨⟨-100, -100⟩, ⟨100, 100⟩⟩ ⟨⟨0, 0⟩, ⟨10, 10⟩⟩).remove_paths [0]).rollback
        (Command.remove [(0, ⟨0, [⟨0, 0⟩, ⟨10, 0⟩]⟩)])).selected 0 = false := by
  constructor
  · have hseg : SegMem ⟨⟨0, 0⟩, ⟨10, 0⟩⟩ ((⟨⟨0, 0⟩, ⟨10, 0⟩⟩ : Line).point 0) :=
      ⟨0, le_refl 0, by norm_num, rfl⟩
    have htm := tileOf_mem_lineBoundingTileIds ⟨⟨0, 0⟩, ⟨10, 0⟩⟩ _ hseg
    have hpt : (⟨⟨0, 0⟩, ⟨10, 0⟩⟩ : Line).point 0 = ((0 : ℚ), (0 : ℚ)) := by
      norm_num [Line.point]
    have htile : tileOf ((0 : ℚ), (0 : ℚ)) = ⟨0, 0⟩ := by
      simp [tileOf]
    rw [hpt, htile] at htm
    have htouch : (⟨0, 0⟩ : TileId) ∈ touchedTiles [⟨0, 0⟩, ⟨10, 0⟩] :=
      (mem_touchedTiles _ _).mpr ⟨⟨⟨0, 0⟩, ⟨10, 0⟩⟩, by simp [linesOf], htm⟩
    have hns : newSegs [⟨0, 0⟩, ⟨10, 0⟩] ⟨0, 0⟩ ≠ [] :=
      (newSegs_ne_nil_iff _ _).mpr htouch
    have hentry := entryOpt_insert_path_self_cons Tiling.empty 0 [⟨0, 0⟩, ⟨10, 0⟩] ⟨0, 0⟩ hns
    rw [show Tiling.empty.entryOpt ⟨0, 0⟩ 0 = none from rfl] at hentry
    simp only [Option.getD_none, List.nil_append] at hentry
    rw [Tiling.entryOpt] at hentry
    cases hm : (Tiling.empty.insert_path 0 [⟨0, 0⟩, ⟨10, 0⟩]).tiles ⟨0, 0⟩ with
    | none => rw [hm] at hentry; cases hentry
    | some mm =>
        rw [hm, Option.some_bind] at hentry
        have hmm := TileMap.lookup_mem mm 0 _ hentry
        have hout : ((0 : PathId), newSegs [⟨0, 0⟩, ⟨10, 0⟩] ⟨0, 0⟩) ∈
            (Tiling.empty.insert_path 0 [⟨0, 0⟩, ⟨10, 0⟩]).boundingTileItemsRect
              ⟨⟨0, 0⟩, ⟨10, 10⟩⟩ := by
          rw [boundingTileItemsRect_eq, List.mem_bind]
          refine ⟨⟨0, 0⟩, by decide, ?_⟩
          rw [hm]
          exact hmm
        simp only [Model.select_paths_with]
        rw [Bool.or_eq_true]
        exact Or.inr (List.any_eq_true.mpr
          ⟨(0, newSegs [⟨0, 0⟩, ⟨10, 0⟩] ⟨0, 0⟩), hout, rfl⟩)
  · rfl

end Papirs
